import Mathlib

/-!
Shallow embedding of the `msmp` crate (a minimal-perfect-hash generator) and
proofs about its specification claims.

Source files embedded: `src/word_list.rs`, `src/elc_algorithm.rs`,
`src/two_d_array.rs`, `src/rlt.rs`, `src/one_d_packed_array.rs`, `src/msmp.rs`.

Modelling conventions:
* Rust `usize` / `isize` are modelled as `Nat` / `Int` (the crate's own spec
  treats overflow of realistic inputs as impossible; the `try_from`
  conversions between them therefore always succeed in the model, and the
  code's "Unexpected ... overflow" branches are not reachable).
* Rust `&str` is modelled as `List Char`; `str::len` (a UTF-8 byte count) is
  modelled by summing `Char.utf8Size`, and `str::chars` is the list itself.
* `BTreeSet` is a strictly-sorted `List Nat`; `BTreeMap` is an association
  list strictly sorted by key.  Iteration order of both is the list order.
* Fallible Rust code returns `Except Error`.  A Rust panic is modelled by
  `Option`: an outer `none` means the computation panicked.  The `%` of
  `isize` is truncating division remainder, i.e. `Int.tmod`.
-/

namespace Msmp

/-- Word: Rust `&str` / `String`, modelled as its list of characters. -/
abbrev Word := List Char

/-- Error kinds, from `src/error.rs`. -/
inductive Kind where
  | HashError : String → Kind
  | WordListError : String → Kind
  | TwoDArrayError : String → Kind
  | OneDPackedArrayError : String → Kind
  | ElcAlgorithmError : String → Kind
deriving DecidableEq, Repr

/-- Error struct, from `src/error.rs`. -/
structure Error where
  kind : Kind
deriving DecidableEq, Repr

/-- WordList, from `src/word_list.rs`: a list of words. -/
structure WordList where
  list : List Word
deriving DecidableEq, Repr

/-- Character test used by `WordList::is_valid`:
`c.is_ascii_alphabetic() && c.is_ascii_uppercase()`.  (Lean's `Char.isAlpha`
and `Char.isUpper` are exactly the ASCII ranges used by Rust.) -/
def validChar (c : Char) : Bool := c.isAlpha && c.isUpper

/-- Loop body of `WordList::is_valid` (`src/word_list.rs` lines 41-62):
iterate over the words with their 0-based index `i`, first rejecting a word
with a character outside A-Z, then rejecting a duplicate.  The `BTreeSet`
`duplicate_checker` is modelled by the list `seen` of words already
processed (only membership is ever queried). -/
def isValidGo (seen : List Word) (i : Nat) : List Word → Except Error Unit
  | [] => .ok ()
  | w :: rest =>
    if ¬ (w.all validChar) then
      .error ⟨.WordListError ("Non ASCII upper case alphabetic word detected at "
        ++ toString (i + 1) ++ ".")⟩
    else if w ∈ seen then
      .error ⟨.WordListError ("Duplicate word detected: " ++ String.mk w
        ++ " at position " ++ toString (i + 1))⟩
    else
      isValidGo (w :: seen) (i + 1) rest

/-- WordList::is_valid, from `src/word_list.rs` lines 33-65. -/
def WordList.is_valid (wl : WordList) : Except Error Unit :=
  if wl.list.isEmpty then .error ⟨.WordListError "Empty word list."⟩
  else isValidGo [] 0 wl.list

/-- WordList::len. -/
def WordList.len (wl : WordList) : Nat := wl.list.length

/-- ElcAlgorithm, from `src/elc_algorithm.rs`: parameters `elc` and
`num_vals`. -/
structure ElcAlgorithm where
  elc : Nat
  num_vals : Nat
deriving DecidableEq, Repr

/-- ElcAlgorithm::char_to_index: `(c as usize) - ('A' as usize)`.  The Rust
function asserts `c.is_ascii_uppercase()`; every call site has already
checked this, so the assertion never fires and the subtraction is exact. -/
def ElcAlgorithm.char_to_index (c : Char) : Nat := c.toNat - 65

/-- ElcAlgorithm::step: `acc * num_vals + x`. -/
def ElcAlgorithm.step (a : ElcAlgorithm) (acc x : Nat) : Nat :=
  acc * a.num_vals + x

/-- Rust `str::len`: the UTF-8 byte length of the word. -/
def strByteLen (w : Word) : Nat := (w.map Char.utf8Size).sum

/-- ElcAlgorithm error message for a word shorter than `elc` bytes. -/
def elcLenMsg (wordLen elc : Nat) : String :=
  "Expected word length (" ++ toString wordLen
    ++ ") to be greater than or equal to elc (" ++ toString elc ++ ")."

/-- ElcAlgorithm error message for a bad character in the hashed window. -/
def elcCharMsg (w : Word) (elc : Nat) : String :=
  "Unexpected character(s) encountered (" ++ String.mk w
    ++ ") in indices (0.." ++ toString elc ++ ")."

/-- ElcAlgorithm::h1, from `src/elc_algorithm.rs` lines 28-51: reject words
of byte length below `elc`; then fold the first `elc` characters (checked to
be ASCII uppercase) most-significant first in base `num_vals`. -/
def ElcAlgorithm.h1 (a : ElcAlgorithm) (word : Word) : Except Error Nat :=
  if strByteLen word < a.elc then
    .error ⟨.ElcAlgorithmError (elcLenMsg (strByteLen word) a.elc)⟩
  else if (word.take a.elc).all Char.isUpper then
    .ok (((word.take a.elc).map ElcAlgorithm.char_to_index).foldl a.step 0)
  else
    .error ⟨.ElcAlgorithmError (elcCharMsg word a.elc)⟩

/-- ElcAlgorithm::h2, from `src/elc_algorithm.rs` lines 53-82: the same fold
over `word.chars().rev().take(elc)`, i.e. the last `elc` characters taken in
reverse order. -/
def ElcAlgorithm.h2 (a : ElcAlgorithm) (word : Word) : Except Error Nat :=
  if strByteLen word < a.elc then
    .error ⟨.ElcAlgorithmError (elcLenMsg (strByteLen word) a.elc)⟩
  else if (word.reverse.take a.elc).all Char.isUpper then
    .ok (((word.reverse.take a.elc).map ElcAlgorithm.char_to_index).foldl a.step 0)
  else
    .error ⟨.ElcAlgorithmError (elcCharMsg word a.elc)⟩

/-- HashAlgorithm trait, from `src/msmp.rs` lines 31-68, modelled as a record
of its four operations (the two text renderings are constant per instance). -/
structure HashAlgorithm where
  h1 : Word → Except Error Nat
  h2 : Word → Except Error Nat
  h1_as_text : String
  h2_as_text : String

/-- Row of the 2-D array, from `src/two_d_array.rs`: `cols` is a
`BTreeMap<usize, usize>` from column index to word-ordinal, modelled as an
association list strictly sorted by column index. -/
abbrev Row := List (Nat × Nat)

/-- Row::get_col_indices: the column indices in ascending order. -/
def rowColIndices (row : Row) : List Nat := row.map (·.1)

/-- Row::get_col_values: the word-ordinals, in ascending column order. -/
def rowColValues (row : Row) : List Nat := row.map (·.2)

/-- BTreeMap lookup on a key-sorted association list. -/
def mapLookup (k : Nat) : List (Nat × α) → Option α
  | [] => none
  | (k', v) :: rest => if k = k' then some v else mapLookup k rest

/-- BTreeMap insert on a key-sorted association list, returning the previous
value at the key (as `BTreeMap::insert` does) together with the new map. -/
def mapInsert (k : Nat) (v : α) : List (Nat × α) → Option α × List (Nat × α)
  | [] => (none, [(k, v)])
  | (k', v') :: rest =>
    if k < k' then (none, (k, v) :: (k', v') :: rest)
    else if k = k' then (some v', (k, v) :: rest)
    else
      let r := mapInsert k v rest
      (r.1, (k', v') :: r.2)

/-- BTreeSet insert: insert into a strictly-sorted list of naturals. -/
def setInsert (x : Nat) : List Nat → List Nat
  | [] => [x]
  | y :: ys =>
    if x < y then x :: y :: ys
    else if x = y then y :: ys
    else y :: setInsert x ys

/-- Collecting an iterator into a `BTreeSet` and back into a `Vec`
(`src/one_d_packed_array.rs` lines 147-152): the sorted deduplicated list. -/
def dedupSort (l : List Nat) : List Nat := l.foldl (fun s x => setInsert x s) []

/-- TwoDArray, from `src/two_d_array.rs`:  `rows` is a `BTreeMap` from row
index to `Row`, modelled as an association list strictly sorted by row
index. -/
structure TwoDArray where
  rows : List (Nat × Row)
  rows_by_size : List Nat
  num_entries : Nat
  num_rows : Nat
  last_row_index : Nat
deriving DecidableEq, Repr

/-- Per-word hash computation of `TwoDArray::new` (`src/two_d_array.rs`
lines 68-76): `h1` then `h2` of each word in order, propagating the first
error. -/
def computeIndices (alg : HashAlgorithm) : List Word → Except Error (List (Nat × Nat))
  | [] => .ok []
  | w :: rest => do
    let r ← alg.h1 w
    let c ← alg.h2 w
    let rcs ← computeIndices alg rest
    pure ((r, c) :: rcs)

/-- Collision error message of `TwoDArray::new` (`src/two_d_array.rs` lines
88-92): quotes the earlier word (ordinal `prior`) and the later word
(0-based index `i`). -/
def collisionMsg (wl : List Word) (prior i : Nat) : String :=
  "Collision: " ++ String.mk (wl.getD (prior - 1) [])
    ++ " === " ++ String.mk (wl.getD i [])

/-- Single cell insertion of `TwoDArray::new` (`src/two_d_array.rs` lines
80-94): `rows.entry(r).or_insert(empty-row)` followed by
`row.cols.insert(c, i + 1)`, with a collision error when the column was
already present.  `i` is the 0-based word index. -/
def insertCell (wl : List Word) (i r c : Nat) : List (Nat × Row) → Except Error (List (Nat × Row))
  | [] => .ok [(r, [(c, i + 1)])]
  | (r', cols) :: rest =>
    if r < r' then .ok ((r, [(c, i + 1)]) :: (r', cols) :: rest)
    else if r = r' then
      match mapInsert c (i + 1) cols with
      | (some prior, _) => .error ⟨.TwoDArrayError (collisionMsg wl prior i)⟩
      | (none, cols') => .ok ((r', cols') :: rest)
    else do
      let rest' ← insertCell wl i r c rest
      pure ((r', cols) :: rest')

/-- Fill loop of `TwoDArray::new` (`src/two_d_array.rs` lines 78-94). -/
def fillRows (wl : List Word) : Nat → List (Nat × Nat) → List (Nat × Row) →
    Except Error (List (Nat × Row))
  | _, [], rows => .ok rows
  | i, (r, c) :: rest, rows => do
    let rows' ← insertCell wl i r c rows
    fillRows wl (i + 1) rest rows'

/-- Comparator realising Rust's stable `sort_by_key(|k| Reverse(k.0))` on the
`(size, row-index)` pairs: the pairs are produced in ascending row-index
order with pairwise-distinct row indices, so the stable sort by descending
size coincides with sorting by the total order "larger size first, equal
sizes by ascending row index", which is what this comparator encodes. -/
def sizeLe (a b : Nat × Nat) : Bool := b.1 < a.1 || (a.1 == b.1 && a.2 ≤ b.2)

/-- Insertion into a `sizeLe`-sorted list. -/
def insBySize (x : Nat × Nat) : List (Nat × Nat) → List (Nat × Nat)
  | [] => [x]
  | y :: ys => if sizeLe x y then x :: y :: ys else y :: insBySize x ys

/-- Insertion sort by `sizeLe` (`src/two_d_array.rs` lines 99-104). -/
def sortBySize (l : List (Nat × Nat)) : List (Nat × Nat) := l.foldr insBySize []

/-- TwoDArray::new, from `src/two_d_array.rs` lines 55-111.  The outer
`Option` models the panic of `rows.last_key_value().unwrap()`, which fires
exactly when no word was inserted (empty word list). -/
def TwoDArray.new (wl : WordList) (alg : HashAlgorithm) :
    Option (Except Error TwoDArray) :=
  match computeIndices alg wl.list with
  | .error e => some (.error e)
  | .ok rcs =>
    match fillRows wl.list 0 rcs [] with
    | .error e => some (.error e)
    | .ok rows =>
      match (rows.map (·.1)).getLast? with
      | none => none
      | some lastIdx =>
        some (.ok
          { rows := rows
            rows_by_size :=
              (sortBySize (rows.map (fun p => (p.2.length, p.1)))).map (·.2)
            num_entries := wl.list.length
            num_rows := rows.length
            last_row_index := lastIdx })

/-- Rlt, from `src/rlt.rs`: a dense table of signed displacements plus the
word count used as the modulus. -/
structure Rlt where
  table : List Int
  num_words : Nat
deriving DecidableEq, Repr

/-- Rlt::get_as_text (`src/rlt.rs` lines 69-75): decimal entries joined by
a comma and a space. -/
def Rlt.get_as_text (rlt : Rlt) : String :=
  String.intercalate ", " (rlt.table.map toString)

/-- OneDPackedArray, from `src/one_d_packed_array.rs`. -/
structure OneDPackedArray where
  array : List Nat
  rlt : Rlt
deriving DecidableEq, Repr

/-- OneDPackedArray::adjust_index (`src/one_d_packed_array.rs` lines
201-212): `(index as isize + adj) % (num_entries as isize)` with Rust's
truncating `%` (`Int.tmod`), converted back to `usize`.  `none` models the
panic on a negative adjusted index.  (The `try_from` parameter-overflow
panic cannot occur in the unbounded model; Rust's division-by-zero panic
for `num_entries = 0` is unreachable because the caller bails out earlier
when the unused-index set is empty.) -/
def adjust_index (index : Nat) (adj : Int) (num_entries : Nat) : Option Nat :=
  let adj_index := Int.tmod ((index : Int) + adj) (num_entries : Int)
  if 0 ≤ adj_index then some adj_index.toNat else none

/-- Write loop of `OneDPackedArray::not_inserted` (`src/one_d_packed_array.rs`
lines 176-180): `zip` of the row's values (ascending column order) with the
sorted adjusted indices, writing each value at the paired index. -/
def writeZip (arr : List Nat) : List Nat → List Nat → List Nat
  | v :: vs, i :: rest => writeZip (arr.set i v) vs rest
  | _, _ => arr

/-- OneDPackedArray::not_inserted (`src/one_d_packed_array.rs` lines
138-183).  Result: `none` models a panic inside `adjust_index`;
`some (true, _, _)` means the row was rejected (state unchanged);
`some (false, arr, unused)` means the row was inserted, returning the
updated array and unused-index set. -/
def not_inserted (arr unused : List Nat) (row : Row) (rlt_value : Int) :
    Option (Bool × List Nat × List Nat) :=
  match (rowColIndices row).mapM (fun c => adjust_index c rlt_value arr.length) with
  | none => none
  | some adjRaw =>
    let adj := dedupSort adjRaw
    if adj.length ≠ (rowColIndices row).length then some (true, arr, unused)
    else if adj.any (fun i => ¬ unused.contains i) then some (true, arr, unused)
    else
      some (false, writeZip arr (rowColValues row) adj,
        unused.filter (fun i => ¬ adj.contains i))

/-- Outcome of the displacement search for one row. -/
inductive RowSearch where
  /-- A panic occurred inside `adjust_index`. -/
  | panicked : RowSearch
  /-- The loop returned `Err` ("unable to minimally pack array"). -/
  | failed : Error → RowSearch
  /-- The row was inserted: new array, new unused set, accepted shift. -/
  | placed : List Nat → List Nat → Int → RowSearch
  /-- Fuel ran out (proved unreachable for the fuel used by `new`). -/
  | fuelOut : RowSearch
deriving DecidableEq, Repr

/-- Inner `while` loop of `OneDPackedArray::new` (`src/one_d_packed_array.rs`
lines 55-70): try `not_inserted` with the current shift `d`; on rejection
bump `d` by one and fail once `d + c0` reaches `num_entries`.  `c0` is the
row's first (smallest) column index, the Rust `rlt_seed`.  The loop runs at
most `N + 1` times (the shift strictly increases and is bounded), so it is
given explicit fuel; `new` supplies fuel `N + 1`, for which `fuelOut` is
proved unreachable. -/
def placeRow (N : Nat) (row : Row) (c0 : Nat) :
    Nat → List Nat → List Nat → Int → RowSearch
  | 0, _, _, _ => .fuelOut
  | fuel + 1, arr, unused, d =>
    match not_inserted arr unused row d with
    | none => .panicked
    | some (false, arr', unused') => .placed arr' unused' d
    | some (true, _, _) =>
      if d + 1 + (c0 : Int) ≥ (N : Int) then
        .failed ⟨.OneDPackedArrayError "unable to minimally pack array"⟩
      else placeRow N row c0 fuel arr unused (d + 1)

/-- Row loop of `OneDPackedArray::new` (`src/one_d_packed_array.rs` lines
42-90), consuming the row indices in `rows_by_size` order exactly as
`RowSizeIterator` yields them (a failing row lookup ends the iteration).
State: packed array, unused-index set, working row-lookup map `rlt_wrk`.
The outer `Option` models a panic (or fuel exhaustion, proved unreachable). -/
def packRows (N : Nat) (rows : List (Nat × Row)) :
    List Nat → List Nat → List Nat → List (Nat × Int) →
    Option (Except Error (List Nat × List Nat × List (Nat × Int)))
  | [], arr, unused, wrk => some (.ok (arr, unused, wrk))
  | ri :: rest, arr, unused, wrk =>
    match mapLookup ri rows with
    | none => some (.ok (arr, unused, wrk))
    | some row =>
      match row.head? with
      | none => packRows N rows rest arr unused wrk
      | some cell0 =>
        match unused.head? with
        | none => some (.error ⟨.OneDPackedArrayError "Unexpected no unused index found"⟩)
        | some u0 =>
          match placeRow N row cell0.1 (N + 1) arr unused (-(cell0.1 : Int) + (u0 : Int)) with
          | .panicked => none
          | .fuelOut => none
          | .failed e => some (.error e)
          | .placed arr' unused' d =>
            packRows N rows rest arr' unused' (mapInsert ri d wrk).2

/-- OneDPackedArray::new (`src/one_d_packed_array.rs` lines 31-100): pack all
rows, then materialise the dense `Rlt` from the working map (ascending row
index, as `BTreeMap` iteration yields it) and record
`num_entries = array.len()`. -/
def OneDPackedArray.new (tda : TwoDArray) : Option (Except Error OneDPackedArray) :=
  match packRows tda.num_entries tda.rows tda.rows_by_size
      (List.replicate tda.num_entries 0) (List.range tda.num_entries) [] with
  | none => none
  | some (.error e) => some (.error e)
  | some (.ok (arr, _, wrk)) =>
    some (.ok
      { array := arr
        rlt :=
          { table :=
              wrk.foldl (fun t p => t.set p.1 p.2)
                (List.replicate (tda.last_row_index + 1) 0)
            num_words := arr.length } })

/-- HashData, from `src/msmp.rs` lines 88-99.  The Rust closure captures a
copy of the `Rlt` and of the `HashAlgorithm`; it is modelled as those two
captured values plus the application function `HashData.closure`. -/
structure HashData where
  as_string : String
  rlt : Rlt
  alg : HashAlgorithm

/-- Closure body `hash`, from `src/msmp.rs` lines 149-155: failing `h1`/`h2`
components are replaced by 0 (`unwrap_or(0)`), an out-of-range row index
reads displacement 0, a negative sum becomes 0
(`usize::try_from(..).unwrap_or(0)` — `Int.toNat` does exactly this), and
the result is reduced modulo `num_words`.  (Rust's `%` panics when
`num_words = 0`; every use in the crate has `num_words = |WordList| > 0`.) -/
def hash (word : Word) (rlt : Rlt) (alg : HashAlgorithm) : Nat :=
  let row_index := (alg.h1 word).toOption.getD 0
  let col_index := (alg.h2 word).toOption.getD 0
  let rlt_val : Int := (rlt.table.get? row_index).getD 0
  let tmp : Nat := (rlt_val + (col_index : Int)).toNat
  tmp % rlt.num_words

/-- The closure returned by `generate_hash`, applied to a word. -/
def HashData.closure (hd : HashData) (w : Word) : Nat := hash w hd.rlt hd.alg

/-- Pseudo-code rendering `text`, from `src/msmp.rs` lines 169-181. -/
def text (rlt : Rlt) (alg : HashAlgorithm) : String :=
  "row_lookup_table = [" ++ rlt.get_as_text ++ "]\n"
    ++ "row_index = " ++ alg.h1_as_text ++ "\n"
    ++ "col_index = " ++ alg.h2_as_text ++ "\n"
    ++ "hash_value = (row_lookup_table[row_index] + col_index) % "
    ++ toString rlt.num_words ++ "\n"

/-- First loop of `verify` (`src/msmp.rs` lines 209-220): hash every word,
erroring on a repeated value, and collect the values into a `BTreeSet`
(`acc`, a strictly-sorted list). -/
def verifyLoop1 (rlt : Rlt) (alg : HashAlgorithm) : List Word → List Nat →
    Except Error (List Nat)
  | [], acc => .ok acc
  | w :: ws, acc =>
    let h := hash w rlt alg
    if acc.contains h then
      .error ⟨.HashError "Collision detected while verifying the hash."⟩
    else verifyLoop1 rlt alg ws (setInsert h acc)

/-- Second loop of `verify` (`src/msmp.rs` lines 222-234): walk the sorted
hash values with their enumeration index, failing on a gap (value differs
from its index) and then on a value at or above the word count. -/
def verifyLoop2 (n : Nat) : Nat → List Nat → Except Error Unit
  | _, [] => .ok ()
  | i, h :: hs =>
    if h ≠ i then .error ⟨.HashError "Unexpected gap found in index list."⟩
    else if h ≥ n then .error ⟨.HashError "Hash value is out of range."⟩
    else verifyLoop2 n (i + 1) hs

/-- verify, from `src/msmp.rs` lines 204-236. -/
def verify (wl : WordList) (rlt : Rlt) (alg : HashAlgorithm) : Except Error Unit := do
  let hs ← verifyLoop1 rlt alg wl.list []
  verifyLoop2 wl.list.length 0 hs

/-- generate_hash, from `src/msmp.rs` lines 113-138: validate, build the 2-D
array, pack it, verify, and emit the `HashData`.  The outer `Option`
propagates the panic cases of the model. -/
def generate_hash (wl : WordList) (alg : HashAlgorithm) :
    Option (Except Error HashData) :=
  match wl.is_valid with
  | .error e => some (.error e)
  | .ok _ =>
    match TwoDArray.new wl alg with
    | none => none
    | some (.error e) => some (.error e)
    | some (.ok tda) =>
      match OneDPackedArray.new tda with
      | none => none
      | some (.error e) => some (.error e)
      | some (.ok opda) =>
        match verify wl opda.rlt alg with
        | .error e => some (.error e)
        | .ok _ => some (.ok ⟨text opda.rlt alg, opda.rlt, alg⟩)

/-- Model of `RowSizeIterator` (`src/two_d_array.rs` lines 182-210): the
sequence of `(row_index, row)` pairs produced by repeated `next_biggest`
calls.  A failing row lookup yields `None` and ends the iteration. -/
def rowSizeSeq (rows : List (Nat × Row)) : List Nat → List (Nat × Row)
  | [] => []
  | i :: rest =>
    match mapLookup i rows with
    | none => []
    | some r => (i, r) :: rowSizeSeq rows rest

/-- Column population of a row of a TwoDArray (0 for an absent row). -/
def popOf (tda : TwoDArray) (i : Nat) : Nat :=
  ((mapLookup i tda.rows).getD []).length

/-- Modelled from the spec (§6 "Pseudo-code output format"): the four-line
template that `HashData.as_string` is claimed to equal.  This definition is
written from the spec's words, for comparison with `text` above. -/
def specTemplate (rltText h1t h2t : String) (n : Nat) : String :=
  "row_lookup_table = [" ++ rltText ++ "]\n"
    ++ "row_index = " ++ h1t ++ "\n"
    ++ "col_index = " ++ h2t ++ "\n"
    ++ "hash_value = (row_lookup_table[row_index] + col_index) % "
    ++ toString n ++ "\n"

/-- Modelled from the spec (§3, ElcAlgorithm): the base-`nv` value of a list
of characters used as digits (A=0, ..., Z=25), most-significant first. -/
def baseVal (nv : Nat) (l : List Char) : Nat :=
  l.foldl (fun acc c => acc * nv + (c.toNat - 65)) 0

/-- Default ElcAlgorithm (`src/elc_algorithm.rs` lines 85-92). -/
def elcDefault : ElcAlgorithm := ⟨1, 26⟩

/-- Default ElcAlgorithm packaged as a HashAlgorithm.  The crate's
`impl HashAlgorithm for ElcAlgorithm` under `src/` provides only `h1` and
`h2`; its text renderings are not present there, and no claim depends on
their content, so placeholder strings are used. -/
def algDefault : HashAlgorithm := ⟨elcDefault.h1, elcDefault.h2, "h1_text", "h2_text"⟩

/-- Concrete word list AA, AB, BA, BD (counterexample input for the
placement claim): with the default algorithm, row 1 has columns 0 and 3,
which wrap around when shifted by the accepted displacement 3 in a length-4
array. -/
def wlAB : WordList := ⟨[[ 'A', 'A' ], [ 'A', 'B' ], [ 'B', 'A' ], [ 'B', 'D' ]]⟩

/-- The TwoDArray built from `wlAB` with the default algorithm. -/
def tdaAB : TwoDArray :=
  ⟨[(0, [(0, 1), (1, 2)]), (1, [(0, 3), (3, 4)])], [0, 1], 4, 2, 1⟩

/-- The OneDPackedArray built from `tdaAB`. -/
def opdaAB : OneDPackedArray := ⟨[1, 2, 3, 4], ⟨[0, 3], 4⟩⟩

/-- The HashData produced by `generate_hash` on `wlAB` with the default
algorithm. -/
def hdAB : HashData := ⟨text opdaAB.rlt algDefault, opdaAB.rlt, algDefault⟩

/-- Concrete word list AXXA, AXXC, AXXD, BXXA, BXXC (the crate's own packing
unit test). -/
def wl5 : WordList :=
  ⟨[[ 'A', 'X', 'X', 'A' ], [ 'A', 'X', 'X', 'C' ], [ 'A', 'X', 'X', 'D' ],
    [ 'B', 'X', 'X', 'A' ], [ 'B', 'X', 'X', 'C' ]]⟩

/-- The TwoDArray built from `wl5` with the default algorithm. -/
def tda5 : TwoDArray :=
  ⟨[(0, [(0, 1), (2, 2), (3, 3)]), (1, [(0, 4), (2, 5)])], [0, 1], 5, 2, 1⟩

/-- Concrete word list WORD, WORF (the crate's infeasible packing test). -/
def wlWW : WordList := ⟨[[ 'W', 'O', 'R', 'D' ], [ 'W', 'O', 'R', 'F' ]]⟩

/-- The single row of the TwoDArray of `wlWW`: columns 3 and 5 holding
word-ordinals 1 and 2. -/
def rowWW : Row := [(3, 1), (5, 2)]

/-- Concrete word list WORD, WIRE, ABLE (the crate's TwoDArray unit test). -/
def wl3 : WordList :=
  ⟨[[ 'W', 'O', 'R', 'D' ], [ 'W', 'I', 'R', 'E' ], [ 'A', 'B', 'L', 'E' ]]⟩

/-- The TwoDArray built from `wl3` with the default algorithm. -/
def tda3 : TwoDArray := ⟨[(0, [(4, 3)]), (22, [(3, 1), (4, 2)])], [22, 0], 3, 2, 22⟩

/-- Concrete single-word list used to exercise `verify` directly. -/
def wlA : WordList := ⟨[[ 'A' ]]⟩

/-- A row lookup table whose displacement sends the word of `wlA` to hash
value 5, far above the word count 1. -/
def rltOutOfRange : Rlt := ⟨[5], 10⟩

/-- Keys of an association list are strictly increasing (the `BTreeMap`
representation invariant). -/
def KeySorted (l : List (Nat × α)) : Prop :=
  List.Pairwise (fun p q => p.1 < q.1) l

/-- Every row of the list has strictly increasing column indices. -/
def ColsSorted (rows : List (Nat × Row)) : Prop :=
  ∀ p ∈ rows, KeySorted p.2

/-- Predicate: `not_inserted` rejects shift `d` (returns `true`, leaving the
array and the unused set unchanged). -/
def rejectsAt (arr unused : List Nat) (row : Row) (d : Int) : Prop :=
  not_inserted arr unused row d = some (true, arr, unused)

/-- Predicate: `not_inserted` accepts shift `d`, producing the updated
array and unused set. -/
def insertsAt (arr unused : List Nat) (row : Row) (d : Int)
    (arr' unused' : List Nat) : Prop :=
  not_inserted arr unused row d = some (false, arr', unused')

/-- All word-ordinals stored in the rows, in row-major order. -/
def cellValues (rows : List (Nat × Row)) : List Nat :=
  (rows.map fun p => rowColValues p.2).flatten

/-- Word-ordinals of the rows selected by `bs`, in `bs` order. -/
def valsOf (rows : List (Nat × Row)) (bs : List Nat) : List Nat :=
  (bs.map fun ri => rowColValues ((mapLookup ri rows).getD [])).flatten

/-- The sorted target-position set of a row under shift `d` in an array of
`n` entries: the adjusted column indices, deduplicated and sorted (the
`adj_col_indices` of `not_inserted`). -/
def targetsOf (row : Row) (d : Int) (n : Nat) : List Nat :=
  dedupSort ((rowColIndices row).map fun c : Nat => (((c : Int) + d).tmod n).toNat)

/-! ### Shared structural lemmas -/

theorem writeZip_length : ∀ (vs T arr : List Nat), (writeZip arr vs T).length = arr.length := by
  intro vs
  induction vs with
  | nil => intro T arr; cases T <;> simp [writeZip]
  | cons v vs ih =>
    intro T arr
    cases T with
    | nil => simp [writeZip]
    | cons t ts => simpa [writeZip] using (ih ts (arr.set t v)).trans (by simp)

theorem not_inserted_state {arr unused : List Nat} {row : Row} {d : Int}
    {b : Bool} {arr' unused' : List Nat}
    (h : not_inserted arr unused row d = some (b, arr', unused')) :
    arr'.length = arr.length ∧ ∀ x ∈ unused', x ∈ unused := by
  unfold not_inserted at h
  rcases hm : (rowColIndices row).mapM (fun c => adjust_index c d arr.length) with _ | adjRaw
  · rw [hm] at h; exact absurd h (by simp)
  · rw [hm] at h
    simp only at h
    split at h
    · exact ⟨by cases h; rfl, by cases h; intro x hx; exact hx⟩
    · split at h
      · exact ⟨by cases h; rfl, by cases h; intro x hx; exact hx⟩
      · cases h
        refine ⟨writeZip_length _ _ _, ?_⟩
        intro x hx
        exact (List.mem_filter.mp hx).1

theorem not_inserted_true_eq {arr unused : List Nat} {row : Row} {d : Int}
    {arr' unused' : List Nat}
    (h : not_inserted arr unused row d = some (true, arr', unused')) :
    arr' = arr ∧ unused' = unused := by
  unfold not_inserted at h
  rcases hm : (rowColIndices row).mapM (fun c => adjust_index c d arr.length) with _ | adjRaw
  · rw [hm] at h; exact absurd h (by simp)
  · rw [hm] at h
    simp only at h
    split at h
    · cases h; exact ⟨rfl, rfl⟩
    · split at h
      · cases h; exact ⟨rfl, rfl⟩
      · exact absurd h (by simp)

theorem placeRow_placed_state {N : Nat} {row : Row} {c0 : Nat} :
    ∀ {fuel : Nat} {arr unused : List Nat} {d : Int} {arr' unused' : List Nat} {d' : Int},
    placeRow N row c0 fuel arr unused d = .placed arr' unused' d' →
    arr'.length = arr.length ∧ ∀ x ∈ unused', x ∈ unused := by
  intro fuel
  induction fuel with
  | zero => intro arr unused d arr' unused' d' h; exact absurd h (by simp [placeRow])
  | succ fuel ih =>
    intro arr unused d arr' unused' d' h
    unfold placeRow at h
    rcases hni : not_inserted arr unused row d with _ | ⟨b, a, u⟩
    · rw [hni] at h; exact absurd h (by simp)
    · rw [hni] at h
      cases b with
      | false =>
        simp only at h
        cases h
        exact not_inserted_state hni
      | true =>
        simp only at h
        split at h
        · exact absurd h (by simp)
        · exact ih h

theorem packRows_ok_state {N : Nat} {rows : List (Nat × Row)} :
    ∀ {bs : List Nat} {arr unused : List Nat} {wrk : List (Nat × Int)}
    {arrF unusedF : List Nat} {wrkF : List (Nat × Int)},
    packRows N rows bs arr unused wrk = some (.ok (arrF, unusedF, wrkF)) →
    arrF.length = arr.length ∧ ∀ x ∈ unusedF, x ∈ unused := by
  intro bs
  induction bs with
  | nil =>
    intro arr unused wrk arrF unusedF wrkF h
    simp only [packRows] at h
    cases h
    exact ⟨rfl, fun x hx => hx⟩
  | cons ri rest ih =>
    intro arr unused wrk arrF unusedF wrkF h
    unfold packRows at h
    rcases hl : mapLookup ri rows with _ | row
    · rw [hl] at h; simp only at h; cases h; exact ⟨rfl, fun x hx => hx⟩
    · rw [hl] at h
      simp only at h
      rcases hh : row.head? with _ | cell0
      · rw [hh] at h; exact ih h
      · rw [hh] at h
        simp only at h
        rcases hu : unused.head? with _ | u0
        · rw [hu] at h; exact absurd h (by simp)
        · rw [hu] at h
          simp only at h
          rcases hp : placeRow N row cell0.1 (N + 1) arr unused (-(cell0.1 : Int) + (u0 : Int)) with _ | e | ⟨a, u, d⟩ | _
          · rw [hp] at h; exact absurd h (by simp)
          · rw [hp] at h; exact absurd h (by simp)
          · rw [hp] at h
            obtain ⟨h1, h2⟩ := ih h
            obtain ⟨h3, h4⟩ := placeRow_placed_state hp
            exact ⟨h1.trans h3, fun x hx => h4 x (h2 x hx)⟩
          · rw [hp] at h; exact absurd h (by simp)

theorem tda_new_ok {wl : WordList} {alg : HashAlgorithm} {tda : TwoDArray}
    (h : TwoDArray.new wl alg = some (.ok tda)) :
    ∃ rcs rows lastIdx,
      computeIndices alg wl.list = .ok rcs ∧
      fillRows wl.list 0 rcs [] = .ok rows ∧
      (rows.map (·.1)).getLast? = some lastIdx ∧
      tda = ⟨rows, (sortBySize (rows.map fun p => (p.2.length, p.1))).map (·.2),
        wl.list.length, rows.length, lastIdx⟩ := by
  unfold TwoDArray.new at h
  rcases hc : computeIndices alg wl.list with e | rcs
  · rw [hc] at h; exact absurd h (by simp)
  · rw [hc] at h
    simp only at h
    rcases hf : fillRows wl.list 0 rcs [] with e | rows
    · rw [hf] at h; exact absurd h (by simp)
    · rw [hf] at h
      simp only at h
      rcases hg : (rows.map (·.1)).getLast? with _ | lastIdx
      · rw [hg] at h; exact absurd h (by simp)
      · rw [hg] at h
        simp only [Option.some.injEq, Except.ok.injEq] at h
        exact ⟨rcs, rows, lastIdx, rfl, hf, hg, h.symm⟩

theorem opda_new_ok {tda : TwoDArray} {opda : OneDPackedArray}
    (h : OneDPackedArray.new tda = some (.ok opda)) :
    ∃ arr unusedF wrk,
      packRows tda.num_entries tda.rows tda.rows_by_size
        (List.replicate tda.num_entries 0) (List.range tda.num_entries) []
        = some (.ok (arr, unusedF, wrk)) ∧
      opda.array = arr ∧
      opda.rlt.num_words = arr.length ∧
      opda.rlt.table = wrk.foldl (fun t p => t.set p.1 p.2)
        (List.replicate (tda.last_row_index + 1) 0) := by
  unfold OneDPackedArray.new at h
  rcases hp : packRows tda.num_entries tda.rows tda.rows_by_size
      (List.replicate tda.num_entries 0) (List.range tda.num_entries) [] with _ | r
  · rw [hp] at h; exact absurd h (by simp)
  · rw [hp] at h
    rcases r with e | ⟨arr, unusedF, wrk⟩
    · exact absurd h (by simp)
    · simp only [Option.some.injEq, Except.ok.injEq] at h
      exact ⟨arr, unusedF, wrk, rfl, by rw [← h], by rw [← h], by rw [← h]⟩

theorem opda_array_length {tda : TwoDArray} {opda : OneDPackedArray}
    (h : OneDPackedArray.new tda = some (.ok opda)) :
    opda.array.length = tda.num_entries ∧ opda.rlt.num_words = tda.num_entries := by
  obtain ⟨arr, unusedF, wrk, hp, ha, hn, -⟩ := opda_new_ok h
  have hl := (packRows_ok_state hp).1
  simp only [List.length_replicate] at hl
  exact ⟨by rw [ha, hl], by rw [hn, hl]⟩

theorem generate_hash_ok_elim {wl : WordList} {alg : HashAlgorithm} {hd : HashData}
    (h : generate_hash wl alg = some (.ok hd)) :
    ∃ tda opda,
      wl.is_valid = .ok () ∧
      TwoDArray.new wl alg = some (.ok tda) ∧
      OneDPackedArray.new tda = some (.ok opda) ∧
      verify wl opda.rlt alg = .ok () ∧
      hd = ⟨text opda.rlt alg, opda.rlt, alg⟩ := by
  unfold generate_hash at h
  rcases hv : wl.is_valid with e | u
  · rw [hv] at h; exact absurd h (by simp)
  · rw [hv] at h
    simp only at h
    rcases ht : TwoDArray.new wl alg with _ | r
    · rw [ht] at h; exact absurd h (by simp)
    · rw [ht] at h
      rcases r with e | tda
      · exact absurd h (by simp)
      · simp only at h
        rcases ho : OneDPackedArray.new tda with _ | r2
        · rw [ho] at h; exact absurd h (by simp)
        · rw [ho] at h
          rcases r2 with e | opda
          · exact absurd h (by simp)
          · simp only at h
            rcases hve : verify wl opda.rlt alg with e | u2
            · rw [hve] at h; exact absurd h (by simp)
            · rw [hve] at h
              simp only [Option.some.injEq, Except.ok.injEq] at h
              exact ⟨tda, opda, by cases u; rfl, rfl, ho, by cases u2; exact hve, h.symm⟩

theorem is_valid_ok_ne_nil {wl : WordList} (h : wl.is_valid = .ok ()) :
    wl.list ≠ [] := by
  intro hnil
  unfold WordList.is_valid at h
  rw [hnil] at h
  simp at h

theorem opda_num_words_eq {wl : WordList} {alg : HashAlgorithm} {tda : TwoDArray}
    {opda : OneDPackedArray} (ht : TwoDArray.new wl alg = some (.ok tda))
    (ho : OneDPackedArray.new tda = some (.ok opda)) :
    opda.rlt.num_words = wl.list.length := by
  obtain ⟨-, hnw⟩ := opda_array_length ho
  obtain ⟨rcs, rows, lastIdx, -, -, -, htda⟩ := tda_new_ok ht
  rw [hnw, htda]

/-! ### C9: totality and range of the emitted closure -/

/-- C9: the closure returned by `generate_hash` is total on all input words:
a failing `h1` or `h2` contributes 0, the looked-up displacement defaults to
0, a negative sum is clamped to 0, and the result is reduced modulo the
word-list length, so it always lies in `[0, N)` where `N = |W| > 0`. -/
theorem C9_closure_total : ∀ (wl : WordList) (alg : HashAlgorithm) (hd : HashData),
    generate_hash wl alg = some (.ok hd) → ∀ w : Word,
    hd.closure w < wl.list.length ∧
    hd.closure w = (((hd.rlt.table.get? ((alg.h1 w).toOption.getD 0)).getD 0)
      + (((alg.h2 w).toOption.getD 0 : Nat) : Int)).toNat % wl.list.length := by
  intro wl alg hd h w
  obtain ⟨tda, opda, hv, ht, ho, -, hhd⟩ := generate_hash_ok_elim h
  have hnw : opda.rlt.num_words = wl.list.length := opda_num_words_eq ht ho
  have hpos : 0 < wl.list.length := List.length_pos.mpr (is_valid_ok_ne_nil hv)
  subst hhd
  refine ⟨?_, ?_⟩
  · show hash w opda.rlt alg < _
    simp only [hash]
    rw [hnw]
    exact Nat.mod_lt _ hpos
  · show hash w opda.rlt alg = _
    simp only [hash]
    rw [hnw]

/-- C9 witness: the theorem applied to the concrete successful build on
`wlAB`, evaluated at the word BA. -/
theorem C9_witness :
    hdAB.closure [ 'B', 'A' ] < wlAB.list.length ∧
    hdAB.closure [ 'B', 'A' ]
      = (((hdAB.rlt.table.get? ((algDefault.h1 [ 'B', 'A' ]).toOption.getD 0)).getD 0)
        + (((algDefault.h2 [ 'B', 'A' ]).toOption.getD 0 : Nat) : Int)).toNat
          % wlAB.list.length :=
  C9_closure_total wlAB algDefault hdAB rfl [ 'B', 'A' ]

/-! ### C8: the emitted pseudo-code string -/

/-- C8: on a successful build, `as_string` equals the four-line template of
the spec, with the Rlt rendered as comma-space-separated signed decimals
taken from the very Rlt captured by the closure, and with the modulus equal
to the word-list length. -/
theorem C8_as_string : ∀ (wl : WordList) (alg : HashAlgorithm) (hd : HashData),
    generate_hash wl alg = some (.ok hd) →
    hd.as_string = specTemplate
      (String.intercalate ", " (hd.rlt.table.map toString))
      alg.h1_as_text alg.h2_as_text wl.list.length := by
  intro wl alg hd h
  obtain ⟨tda, opda, hv, ht, ho, -, hhd⟩ := generate_hash_ok_elim h
  have hnw : opda.rlt.num_words = wl.list.length := opda_num_words_eq ht ho
  subst hhd
  show text opda.rlt alg = _
  simp only [text, specTemplate, Rlt.get_as_text]
  rw [hnw]

/-- C8 witness: the theorem applied to the concrete successful build on
`wlAB`. -/
theorem C8_witness :
    hdAB.as_string = specTemplate
      (String.intercalate ", " (hdAB.rlt.table.map toString))
      algDefault.h1_as_text algDefault.h2_as_text wlAB.list.length :=
  C8_as_string wlAB algDefault hdAB rfl

/-! ### C4: validation of word lists containing an empty word -/

theorem isValidGo_ok_iff : ∀ (ws seen : List Word) (i : Nat),
    isValidGo seen i ws = .ok () ↔
    (∀ w ∈ ws, w.all validChar = true) ∧ ws.Nodup ∧ ∀ w ∈ ws, w ∉ seen := by
  intro ws
  induction ws with
  | nil => intro seen i; simp [isValidGo]
  | cons w rest ih =>
    intro seen i
    unfold isValidGo
    cases hvc : w.all validChar with
    | false =>
      rw [if_pos (by simp [hvc])]
      constructor
      · intro hc; exact absurd hc (by simp)
      · rintro ⟨h1, -, -⟩
        exact absurd (h1 w (by simp)) (by simp [hvc])
    | true =>
      rw [if_neg (by simp [hvc])]
      by_cases hmem : w ∈ seen
      · rw [if_pos hmem]
        constructor
        · intro hc; exact absurd hc (by simp)
        · rintro ⟨-, -, h3⟩
          exact absurd hmem (h3 w (by simp))
      · rw [if_neg hmem]
        rw [ih (w :: seen) (i + 1)]
        simp only [List.nodup_cons, List.mem_cons]
        constructor
        · rintro ⟨h1, h2, h3⟩
          refine ⟨?_, ⟨?_, h2⟩, ?_⟩
          · intro x hx
            rcases hx with hx | hx
            · subst hx; exact hvc
            · exact h1 x hx
          · intro hwr
            exact h3 w hwr (by simp)
          · intro x hx
            rcases hx with hx | hx
            · subst hx; exact hmem
            · intro hxs
              exact h3 x hx (Or.inr hxs)
        · rintro ⟨h1, ⟨hwr, h2⟩, h3⟩
          refine ⟨fun x hx => h1 x (Or.inr hx), h2, ?_⟩
          intro x hx
          simp only [List.mem_cons, not_or]
          exact ⟨fun hxw => hwr (hxw ▸ hx), h3 x (Or.inr hx)⟩

/-- C4 counterexample: the word list consisting of exactly one empty word
passes validation — `is_valid` returns `Ok`, not an error, because the
all-characters-uppercase check is vacuously true for the empty word. -/
theorem C4_counterexample : WordList.is_valid ⟨[[]]⟩ = .ok () := rfl

/-- C4 amended: `is_valid` does not reject empty words.  A WordList
containing an empty-string word still validates successfully provided the
list is (as a whole) non-empty, duplicate-free, and every word's characters
are ASCII uppercase alphabetic (vacuously true for the empty word). -/
theorem C4_empty_word_accepted : ∀ wl : WordList, [] ∈ wl.list →
    (∀ w ∈ wl.list, w.all validChar = true) → wl.list.Nodup →
    wl.is_valid = .ok () := by
  intro wl hmem hall hnd
  unfold WordList.is_valid
  have hne : ¬ wl.list.isEmpty = true := by
    simp only [List.isEmpty_iff]
    intro h0
    rw [h0] at hmem
    simp at hmem
  rw [if_neg hne]
  exact (isValidGo_ok_iff _ _ _).mpr ⟨hall, hnd, by simp⟩

/-- C4 witness: the amended theorem applied to the concrete list containing
the empty word and the word A. -/
theorem C4_witness : WordList.is_valid ⟨[[], [ 'A' ]]⟩ = .ok () :=
  C4_empty_word_accepted ⟨[[], [ 'A' ]]⟩ (by simp) (by decide) (by decide)

/-! ### Lemmas about the verifier -/

theorem setInsert_perm_of_not_mem : ∀ (l : List Nat) (x : Nat), x ∉ l →
    (setInsert x l).Perm (x :: l) := by
  intro l
  induction l with
  | nil => intro x _; simp [setInsert]
  | cons y ys ih =>
    intro x hx
    unfold setInsert
    by_cases h1 : x < y
    · rw [if_pos h1]
    · rw [if_neg h1]
      have h2 : ¬ x = y := fun he => hx (by simp [he])
      rw [if_neg h2]
      have hx' : x ∉ ys := fun hm => hx (by simp [hm])
      exact ((ih x hx').cons y).trans (List.Perm.swap x y ys)

theorem verifyLoop1_ok_perm {rlt : Rlt} {alg : HashAlgorithm} :
    ∀ (ws : List Word) (acc hs : List Nat),
    verifyLoop1 rlt alg ws acc = .ok hs →
    hs.Perm ((ws.map fun w => hash w rlt alg) ++ acc) := by
  intro ws
  induction ws with
  | nil =>
    intro acc hs h
    simp only [verifyLoop1] at h
    cases h
    simp
  | cons w rest ih =>
    intro acc hs h
    simp only [verifyLoop1] at h
    split at h
    · exact absurd h (by simp)
    case isFalse hc =>
      have hnm : hash w rlt alg ∉ acc := by simpa using hc
      have hperm := ih (setInsert (hash w rlt alg) acc) hs h
      have hsi := setInsert_perm_of_not_mem acc (hash w rlt alg) hnm
      have hstep : hs.Perm ((rest.map fun x => hash x rlt alg)
          ++ (hash w rlt alg :: acc)) :=
        hperm.trans (List.Perm.append_left _ hsi)
      have hmid : ((rest.map fun x => hash x rlt alg)
          ++ (hash w rlt alg :: acc)).Perm
          (hash w rlt alg :: ((rest.map fun x => hash x rlt alg) ++ acc)) :=
        List.perm_middle
      simpa using hstep.trans hmid

theorem verifyLoop1_err_shape {rlt : Rlt} {alg : HashAlgorithm} :
    ∀ (ws : List Word) (acc : List Nat) (e : Error),
    verifyLoop1 rlt alg ws acc = .error e →
    e = ⟨.HashError "Collision detected while verifying the hash."⟩ := by
  intro ws
  induction ws with
  | nil => intro acc e h; exact absurd h (by simp [verifyLoop1])
  | cons w rest ih =>
    intro acc e h
    simp only [verifyLoop1] at h
    split at h
    · cases h; rfl
    · exact ih _ _ h

theorem verifyLoop2_ok_elim : ∀ (hs : List Nat) (n i : Nat),
    verifyLoop2 n i hs = .ok () →
    hs = List.range' i hs.length ∧ ∀ h ∈ hs, h < n := by
  intro hs
  induction hs with
  | nil => intro n i _; simp
  | cons h hs' ih =>
    intro n i hv
    unfold verifyLoop2 at hv
    split at hv
    · exact absurd hv (by simp)
    case isFalse hne =>
      split at hv
      · exact absurd hv (by simp)
      case isFalse hlt =>
        obtain ⟨h1, h2⟩ := ih n (i + 1) hv
        have hei : h = i := by omega
        subst hei
        refine ⟨?_, ?_⟩
        · rw [List.length_cons, List.range'_succ, ← h1]
        · intro x hx
          rcases List.mem_cons.mp hx with hx | hx
          · omega
          · exact h2 x hx

theorem verifyLoop2_not_range_err : ∀ (hs : List Nat) (n i : Nat),
    i + hs.length ≤ n →
    verifyLoop2 n i hs ≠ .error ⟨.HashError "Hash value is out of range."⟩ := by
  intro hs
  induction hs with
  | nil => intro n i _ h; exact absurd h (by simp [verifyLoop2])
  | cons h hs' ih =>
    intro n i hb hv
    unfold verifyLoop2 at hv
    split at hv
    · simp only [Except.error.injEq, Error.mk.injEq, Kind.HashError.injEq] at hv
      exact absurd hv (by decide)
    case isFalse hne =>
      split at hv
      case isTrue hge =>
        simp only [List.length_cons] at hb
        omega
      case isFalse hlt =>
        exact ih n (i + 1) (by simp only [List.length_cons] at hb; omega) hv

theorem verifyLoop2_err_shape : ∀ (hs : List Nat) (n i : Nat) (e : Error),
    verifyLoop2 n i hs = .error e →
    e = ⟨.HashError "Unexpected gap found in index list."⟩ ∨
    e = ⟨.HashError "Hash value is out of range."⟩ := by
  intro hs
  induction hs with
  | nil => intro n i e h; exact absurd h (by simp [verifyLoop2])
  | cons h hs' ih =>
    intro n i e hv
    unfold verifyLoop2 at hv
    split at hv
    · cases hv; exact Or.inl rfl
    · split at hv
      · cases hv; exact Or.inr rfl
      · exact ih n (i + 1) e hv

theorem verify_eq (wl : WordList) (rlt : Rlt) (alg : HashAlgorithm) :
    verify wl rlt alg =
      match verifyLoop1 rlt alg wl.list [] with
      | .error e => .error e
      | .ok hs => verifyLoop2 wl.list.length 0 hs := by
  unfold verify
  cases verifyLoop1 rlt alg wl.list [] <;> rfl

/-! ### C3: out-of-range hash values and the verifier's error -/

/-- C3 amended: `verify` never returns the error "Hash value is out of
range." — the gap check precedes the range check in the second loop and the
collected set has at most `N` elements, so an index mismatch always fires
first.  Consequently, when some word's hash value is at least the word-list
length, verification does fail, but with the collision error or the gap
error. -/
theorem C3_out_of_range_never_reported :
    ∀ (wl : WordList) (rlt : Rlt) (alg : HashAlgorithm),
    (verify wl rlt alg ≠ .error ⟨.HashError "Hash value is out of range."⟩) ∧
    ((∃ w ∈ wl.list, wl.list.length ≤ hash w rlt alg) →
      verify wl rlt alg
          = .error ⟨.HashError "Collision detected while verifying the hash."⟩ ∨
      verify wl rlt alg
          = .error ⟨.HashError "Unexpected gap found in index list."⟩) := by
  intro wl rlt alg
  rw [verify_eq]
  rcases hl : verifyLoop1 rlt alg wl.list [] with e | hs
  · have he := verifyLoop1_err_shape wl.list [] e hl
    subst he
    constructor
    · intro hcontra
      simp only [Except.error.injEq, Error.mk.injEq, Kind.HashError.injEq] at hcontra
      exact absurd hcontra (by decide)
    · intro _
      exact Or.inl rfl
  · have hperm := verifyLoop1_ok_perm wl.list [] hs hl
    have hlen : hs.length = wl.list.length := by
      have := hperm.length_eq
      simpa using this
    constructor
    · exact verifyLoop2_not_range_err hs wl.list.length 0 (by omega)
    · rintro ⟨w, hw, hge⟩
      rcases hres : verifyLoop2 wl.list.length 0 hs with e | u
      · rcases verifyLoop2_err_shape hs wl.list.length 0 e hres with hgap | hrange
        · subst hgap; exact Or.inr hres
        · subst hrange
          exact absurd hres (verifyLoop2_not_range_err hs wl.list.length 0 (by omega))
      · exfalso
        cases u
        obtain ⟨-, hbound⟩ := verifyLoop2_ok_elim hs wl.list.length 0 hres
        have hmem : hash w rlt alg ∈ hs := by
          refine hperm.symm.subset ?_
          simp only [List.append_nil, List.mem_map]
          exact ⟨w, hw, rfl⟩
        exact absurd (hbound _ hmem) (by omega)

/-- C3 counterexample: for the one-word list A with a row lookup table that
sends A to hash value 5 (with modulus 10), the hash value 5 is at least the
word count 1, yet `verify` reports the gap error, not "Hash value is out of
range." as the claim states. -/
theorem C3_counterexample :
    wlA.list.length ≤ hash [ 'A' ] rltOutOfRange algDefault ∧
    verify wlA rltOutOfRange algDefault
      = .error ⟨.HashError "Unexpected gap found in index list."⟩ :=
  ⟨by decide, rfl⟩

/-- C3 witness: the amended theorem applied at the concrete out-of-range
input. -/
theorem C3_witness :
    verify wlA rltOutOfRange algDefault
        = .error ⟨.HashError "Collision detected while verifying the hash."⟩ ∨
    verify wlA rltOutOfRange algDefault
        = .error ⟨.HashError "Unexpected gap found in index list."⟩ :=
  (C3_out_of_range_never_reported wlA rltOutOfRange algDefault).2
    ⟨[ 'A' ], by simp [wlA], by decide⟩

/-! ### C1: bijectivity of the emitted closure on the word list -/

/-- C1: whenever `generate_hash` succeeds, the closure maps the words of the
list onto exactly `{0, ..., N-1}` with no collisions: the list of hash
values is a permutation of `range N`. -/
theorem C1_bijection : ∀ (wl : WordList) (alg : HashAlgorithm) (hd : HashData),
    generate_hash wl alg = some (.ok hd) →
    (wl.list.map hd.closure).Perm (List.range wl.list.length) := by
  intro wl alg hd h
  obtain ⟨tda, opda, -, -, -, hve, hhd⟩ := generate_hash_ok_elim h
  rw [verify_eq] at hve
  rcases hl : verifyLoop1 opda.rlt alg wl.list [] with e | hs
  · rw [hl] at hve; exact absurd hve (by simp)
  · rw [hl] at hve
    have hperm := verifyLoop1_ok_perm wl.list [] hs hl
    obtain ⟨hrange, -⟩ := verifyLoop2_ok_elim hs wl.list.length 0 hve
    have hlen : hs.length = wl.list.length := by
      have := hperm.length_eq
      simpa using this
    have hmap : (wl.list.map hd.closure)
        = wl.list.map fun x => hash x opda.rlt alg := by
      subst hhd
      rfl
    rw [hmap]
    have h1 : (wl.list.map fun x => hash x opda.rlt alg).Perm hs := by
      simpa using hperm.symm
    rw [List.range_eq_range']
    rw [hrange, hlen] at h1
    exact h1

/-- C1 witness: the theorem applied to the concrete successful build on
`wlAB`: the four hash values are a permutation of `{0, 1, 2, 3}`. -/
theorem C1_witness :
    (wlAB.list.map hdAB.closure).Perm (List.range wlAB.list.length) :=
  C1_bijection wlAB algDefault hdAB rfl

/-! ### C6: ElcAlgorithm arithmetic -/

theorem utf8Size_of_isUpper (c : Char) (h : c.isUpper = true) : c.utf8Size = 1 := by
  unfold Char.utf8Size
  simp only [Char.isUpper] at h
  have h2 : c.val ≤ 90 := of_decide_eq_true ((Bool.and_eq_true _ _).mp h).2
  have h2n : c.val.toNat ≤ 90 := h2
  have h3 : c.val ≤ UInt32.ofNatCore 127 (by norm_num) := by
    show c.val.toNat ≤ (UInt32.ofNatCore 127 (by norm_num)).toNat
    have he : (UInt32.ofNatCore 127 (by norm_num)).toNat = 127 := rfl
    omega
  rw [if_pos h3]

theorem length_le_strByteLen : ∀ w : Word, w.length ≤ strByteLen w := by
  intro w
  induction w with
  | nil => simp [strByteLen]
  | cons c cs ih =>
    have hc := Char.utf8Size_pos c
    simp only [strByteLen, List.map_cons, List.sum_cons, List.length_cons]
    simp only [strByteLen] at ih
    omega

theorem strByteLen_of_upper : ∀ w : Word, (∀ c ∈ w, c.isUpper = true) →
    strByteLen w = w.length := by
  intro w
  induction w with
  | nil => simp [strByteLen]
  | cons c cs ih =>
    intro h
    have hc := utf8Size_of_isUpper c (h c (by simp))
    simp only [strByteLen, List.map_cons, List.sum_cons, List.length_cons]
    simp only [strByteLen] at ih
    rw [hc, ih (fun x hx => h x (by simp [hx]))]
    omega

theorem elc_fold_eq_baseVal (a : ElcAlgorithm) (l : List Char) :
    (l.map ElcAlgorithm.char_to_index).foldl a.step 0 = baseVal a.num_vals l := by
  rw [List.foldl_map]
  rfl

/-- C6: for ElcAlgorithm(elc, num_vals), on a word of at least `elc`
characters whose hashed window is ASCII uppercase, `h1` is the base-num_vals
value of the first `elc` characters most-significant first, and `h2` is the
base-num_vals value of the last `elc` characters in reverse order (the final
character most significant); moreover `h1`/`h2` fail exactly when the word
is shorter than `elc` characters or the respective window contains a
non-uppercase character. -/
theorem C6_elc_arithmetic : ∀ (a : ElcAlgorithm) (w : Word),
    (a.elc ≤ w.length → (w.take a.elc).all Char.isUpper = true →
      a.h1 w = .ok (baseVal a.num_vals (w.take a.elc)))
  ∧ (a.elc ≤ w.length → (w.reverse.take a.elc).all Char.isUpper = true →
      a.h2 w = .ok (baseVal a.num_vals (w.reverse.take a.elc)))
  ∧ ((∃ e, a.h1 w = .error e) ↔
      (w.length < a.elc ∨ (w.take a.elc).all Char.isUpper = false))
  ∧ ((∃ e, a.h2 w = .error e) ↔
      (w.length < a.elc ∨ (w.reverse.take a.elc).all Char.isUpper = false)) := by
  intro a w
  have hlen := length_le_strByteLen w
  refine ⟨?_, ?_, ?_, ?_⟩
  · intro he hall
    unfold ElcAlgorithm.h1
    rw [if_neg (by omega), if_pos hall, elc_fold_eq_baseVal]
  · intro he hall
    unfold ElcAlgorithm.h2
    rw [if_neg (by omega), if_pos hall, elc_fold_eq_baseVal]
  · unfold ElcAlgorithm.h1
    constructor
    · rintro ⟨e, herr⟩
      by_cases hb : strByteLen w < a.elc
      · exact Or.inl (by omega)
      · rw [if_neg hb] at herr
        cases hall : (w.take a.elc).all Char.isUpper
        · exact Or.inr rfl
        · rw [if_pos hall] at herr
          exact absurd herr (by simp)
    · intro hc
      by_cases hb : strByteLen w < a.elc
      · exact ⟨_, by rw [if_pos hb]⟩
      · rw [if_neg hb]
        cases hall : (w.take a.elc).all Char.isUpper
        · exact ⟨_, by rw [if_neg (by simp [hall])]⟩
        · exfalso
          rcases hc with hc | hc
          · have htake : w.take a.elc = w := List.take_of_length_le (by omega)
            rw [htake] at hall
            have := strByteLen_of_upper w (by simpa using hall)
            omega
          · rw [hall] at hc
            exact absurd hc (by simp)
  · unfold ElcAlgorithm.h2
    have hrev : w.reverse.length = w.length := List.length_reverse w
    constructor
    · rintro ⟨e, herr⟩
      by_cases hb : strByteLen w < a.elc
      · exact Or.inl (by omega)
      · rw [if_neg hb] at herr
        cases hall : (w.reverse.take a.elc).all Char.isUpper
        · exact Or.inr rfl
        · rw [if_pos hall] at herr
          exact absurd herr (by simp)
    · intro hc
      by_cases hb : strByteLen w < a.elc
      · exact ⟨_, by rw [if_pos hb]⟩
      · rw [if_neg hb]
        cases hall : (w.reverse.take a.elc).all Char.isUpper
        · exact ⟨_, by rw [if_neg (by simp [hall])]⟩
        · exfalso
          rcases hc with hc | hc
          · have htake : w.reverse.take a.elc = w.reverse :=
              List.take_of_length_le (by omega)
            rw [htake] at hall
            have hup : ∀ c ∈ w, c.isUpper = true := by
              intro c hcm
              exact (List.all_eq_true.mp hall) c (List.mem_reverse.mpr hcm)
            have := strByteLen_of_upper w hup
            omega
          · rw [hall] at hc
            exact absurd hc (by simp)

/-- C6 witness: ElcAlgorithm(2, 26) on the word BA: h1 = 26 (digits B,A
most-significant first) and h2 = 1 (digits A,B reversed, so the final
character A is most significant). -/
theorem C6_witness :
    ElcAlgorithm.h1 ⟨2, 26⟩ [ 'B', 'A' ]
        = .ok (baseVal 26 ([ 'B', 'A' ].take 2)) ∧
    ElcAlgorithm.h2 ⟨2, 26⟩ [ 'B', 'A' ]
        = .ok (baseVal 26 ([ 'B', 'A' ].reverse.take 2)) :=
  ⟨(C6_elc_arithmetic ⟨2, 26⟩ [ 'B', 'A' ]).1 (by decide) (by decide),
   (C6_elc_arithmetic ⟨2, 26⟩ [ 'B', 'A' ]).2.1 (by decide) (by decide)⟩

/-! ### Sorted association list invariants for the TwoDArray -/

theorem mapInsert_mem_keys {β : Type} (k : Nat) (v : β) :
    ∀ (l : List (Nat × β)) (p : Nat × β), p ∈ (mapInsert k v l).2 →
    p.1 = k ∨ p.1 ∈ l.map (·.1) := by
  intro l
  induction l with
  | nil =>
    intro p hp
    simp only [mapInsert, List.mem_singleton] at hp
    subst hp
    exact Or.inl rfl
  | cons q rest ih =>
    intro p hp
    unfold mapInsert at hp
    split at hp
    · rcases List.mem_cons.mp hp with hp | hp
      · subst hp; exact Or.inl rfl
      · rcases List.mem_cons.mp hp with hp | hp
        · subst hp; exact Or.inr (by simp)
        · exact Or.inr (by simp only [List.map_cons, List.mem_cons]; exact Or.inr (List.mem_map_of_mem _ hp))
    · split at hp
      · rcases List.mem_cons.mp hp with hp | hp
        · subst hp; exact Or.inl rfl
        · exact Or.inr (by simp only [List.map_cons, List.mem_cons]; exact Or.inr (List.mem_map_of_mem _ hp))
      · rcases List.mem_cons.mp hp with hp | hp
        · subst hp; exact Or.inr (by simp)
        · rcases ih p hp with h | h
          · exact Or.inl h
          · exact Or.inr (by simp only [List.map_cons, List.mem_cons]; exact Or.inr h)

theorem mapInsert_keySorted {β : Type} (k : Nat) (v : β) :
    ∀ l : List (Nat × β), KeySorted l → KeySorted (mapInsert k v l).2 := by
  intro l
  induction l with
  | nil => intro _; simp [mapInsert, KeySorted]
  | cons q rest ih =>
    intro hs
    have hq := (List.pairwise_cons.mp hs).1
    have hrest := (List.pairwise_cons.mp hs).2
    unfold mapInsert
    split
    case isTrue hlt =>
      refine List.pairwise_cons.mpr ⟨?_, hs⟩
      intro p hp
      rcases List.mem_cons.mp hp with hp | hp
      · subst hp; exact hlt
      · exact lt_trans hlt (hq p hp)
    case isFalse hlt =>
      split
      case isTrue heq =>
        subst heq
        exact List.pairwise_cons.mpr ⟨hq, hrest⟩
      case isFalse hne =>
        refine List.pairwise_cons.mpr ⟨?_, ih hrest⟩
        intro p hp
        rcases mapInsert_mem_keys k v rest p hp with h | h
        · rw [h]; omega
        · rcases List.mem_map.mp h with ⟨q2, hq2, hq2e⟩
          rw [← hq2e]
          exact hq q2 hq2

theorem insertCell_mem_keys {wl : List Word} {i r c : Nat} :
    ∀ (rows rows' : List (Nat × Row)), insertCell wl i r c rows = .ok rows' →
    ∀ p ∈ rows', p.1 = r ∨ p.1 ∈ rows.map (·.1) := by
  intro rows
  induction rows with
  | nil =>
    intro rows' h p hp
    simp only [insertCell] at h
    cases h
    simp only [List.mem_singleton] at hp
    subst hp
    exact Or.inl rfl
  | cons q rest ih =>
    intro rows' h p hp
    unfold insertCell at h
    split at h
    · cases h
      rcases List.mem_cons.mp hp with hp | hp
      · subst hp; exact Or.inl rfl
      · rcases List.mem_cons.mp hp with hp | hp
        · subst hp; exact Or.inr (by simp)
        · exact Or.inr (by simp only [List.map_cons, List.mem_cons]; exact Or.inr (List.mem_map_of_mem _ hp))
    · split at h
      · split at h
        · exact absurd h (by simp)
        · cases h
          rcases List.mem_cons.mp hp with hp | hp
          · subst hp; exact Or.inr (by simp)
          · exact Or.inr (by simp only [List.map_cons, List.mem_cons]; exact Or.inr (List.mem_map_of_mem _ hp))
      · rcases hrec : insertCell wl i r c rest with e | rest'
        · rw [hrec] at h; exact absurd h (by simp [Bind.bind, Except.bind])
        · rw [hrec] at h
          simp only [Bind.bind, Except.bind, pure, Except.pure] at h
          cases h
          rcases List.mem_cons.mp hp with hp | hp
          · subst hp; exact Or.inr (by simp)
          · rcases ih rest' hrec p hp with hcase | hcase
            · exact Or.inl hcase
            · exact Or.inr (by simp only [List.map_cons, List.mem_cons]; exact Or.inr hcase)

theorem insertCell_inv {wl : List Word} {i r c : Nat} :
    ∀ (rows rows' : List (Nat × Row)), insertCell wl i r c rows = .ok rows' →
    KeySorted rows → ColsSorted rows → KeySorted rows' ∧ ColsSorted rows' := by
  intro rows
  induction rows with
  | nil =>
    intro rows' h _ _
    simp only [insertCell] at h
    cases h
    exact ⟨by simp [KeySorted], by
      intro p hp
      simp only [List.mem_singleton] at hp
      subst hp
      simp [KeySorted]⟩
  | cons q rest ih =>
    intro rows' h hks hcs
    have hq := (List.pairwise_cons.mp hks).1
    have hrest : KeySorted rest := (List.pairwise_cons.mp hks).2
    have hcrest : ColsSorted rest := fun p hp => hcs p (by simp [hp])
    unfold insertCell at h
    split at h
    case isTrue hlt =>
      cases h
      refine ⟨List.pairwise_cons.mpr ⟨?_, hks⟩, ?_⟩
      · intro p hp
        rcases List.mem_cons.mp hp with hp | hp
        · subst hp; exact hlt
        · exact lt_trans hlt (hq p hp)
      · intro p hp
        rcases List.mem_cons.mp hp with hp | hp
        · subst hp; simp [KeySorted]
        · exact hcs p hp
    · split at h
      case isTrue heq =>
        split at h
        · exact absurd h (by simp)
        case _ cols' hmi =>
          cases h
          refine ⟨?_, ?_⟩
          · refine List.pairwise_cons.mpr ⟨hq, hrest⟩
          · intro p hp
            rcases List.mem_cons.mp hp with hp | hp
            · subst hp
              have := mapInsert_keySorted c (i + 1) q.2 (hcs q (by simp))
              rw [hmi] at this
              exact this
            · exact hcrest p hp
      case isFalse hne =>
        rcases hrec : insertCell wl i r c rest with e | rest'
        · rw [hrec] at h; exact absurd h (by simp [Bind.bind, Except.bind])
        · rw [hrec] at h
          simp only [Bind.bind, Except.bind, pure, Except.pure] at h
          cases h
          obtain ⟨h1, h2⟩ := ih rest' hrec hrest hcrest
          refine ⟨List.pairwise_cons.mpr ⟨?_, h1⟩, ?_⟩
          · intro p hp
            rcases insertCell_mem_keys rest rest' hrec p hp with hcase | hcase
            · rw [hcase]
              rcases Nat.lt_trichotomy r q.1 with hx | hx | hx
              · exact absurd hx (by assumption)
              · exact absurd hx (by assumption)
              · exact hx
            · rcases List.mem_map.mp hcase with ⟨q2, hq2, hq2e⟩
              rw [← hq2e]
              exact hq q2 hq2
          · intro p hp
            rcases List.mem_cons.mp hp with hp | hp
            · subst hp; exact hcs q (by simp)
            · exact h2 p hp

theorem fillRows_inv {wl : List Word} :
    ∀ (rcs : List (Nat × Nat)) (i : Nat) (rows rows' : List (Nat × Row)),
    fillRows wl i rcs rows = .ok rows' →
    KeySorted rows → ColsSorted rows → KeySorted rows' ∧ ColsSorted rows' := by
  intro rcs
  induction rcs with
  | nil =>
    intro i rows rows' h h1 h2
    simp only [fillRows] at h
    cases h
    exact ⟨h1, h2⟩
  | cons rc rest ih =>
    intro i rows rows' h h1 h2
    unfold fillRows at h
    rcases hic : insertCell wl i rc.1 rc.2 rows with e | rows1
    · rw [hic] at h; exact absurd h (by simp [Bind.bind, Except.bind])
    · rw [hic] at h
      simp only [Bind.bind, Except.bind, pure, Except.pure] at h
      obtain ⟨h3, h4⟩ := insertCell_inv rows rows1 hic h1 h2
      exact ih (i + 1) rows1 rows' h h3 h4

theorem tda_rows_inv {wl : WordList} {alg : HashAlgorithm} {tda : TwoDArray}
    (h : TwoDArray.new wl alg = some (.ok tda)) :
    KeySorted tda.rows ∧ ColsSorted tda.rows := by
  obtain ⟨rcs, rows, lastIdx, -, hf, -, htda⟩ := tda_new_ok h
  have hres := fillRows_inv rcs 0 [] rows hf List.Pairwise.nil
    (fun p hp => absurd hp (List.not_mem_nil p))
  subst htda
  exact hres

/-! ### Lemmas about the row-size sort and map lookups -/

theorem sizeLe_iff (a b : Nat × Nat) :
    sizeLe a b = true ↔ (b.1 < a.1 ∨ (a.1 = b.1 ∧ a.2 ≤ b.2)) := by
  simp [sizeLe, Bool.or_eq_true, Bool.and_eq_true, decide_eq_true_eq, beq_iff_eq]

theorem sizeLe_total (a b : Nat × Nat) : sizeLe a b = true ∨ sizeLe b a = true := by
  rw [sizeLe_iff, sizeLe_iff]
  omega

theorem sizeLe_trans {a b c : Nat × Nat} (h1 : sizeLe a b = true)
    (h2 : sizeLe b c = true) : sizeLe a c = true := by
  rw [sizeLe_iff] at h1 h2 ⊢
  omega

theorem insBySize_perm (x : Nat × Nat) : ∀ l, (insBySize x l).Perm (x :: l) := by
  intro l
  induction l with
  | nil => simp [insBySize]
  | cons y ys ih =>
    unfold insBySize
    split
    · exact List.Perm.refl _
    · exact (ih.cons y).trans (List.Perm.swap x y ys)

theorem insBySize_pairwise (x : Nat × Nat) :
    ∀ l, List.Pairwise (fun a b => sizeLe a b = true) l →
    List.Pairwise (fun a b => sizeLe a b = true) (insBySize x l) := by
  intro l
  induction l with
  | nil => intro _; simp [insBySize]
  | cons y ys ih =>
    intro hp
    have hy := (List.pairwise_cons.mp hp).1
    have hys := (List.pairwise_cons.mp hp).2
    unfold insBySize
    split
    case isTrue hxy =>
      refine List.pairwise_cons.mpr ⟨?_, hp⟩
      intro z hz
      rcases List.mem_cons.mp hz with hz | hz
      · subst hz; exact hxy
      · exact sizeLe_trans hxy (hy z hz)
    case isFalse hxy =>
      have hyx : sizeLe y x = true := by
        rcases sizeLe_total x y with h | h
        · exact absurd h hxy
        · exact h
      refine List.pairwise_cons.mpr ⟨?_, ih hys⟩
      intro z hz
      rcases List.mem_cons.mp ((insBySize_perm x ys).mem_iff.mp hz) with hz2 | hz2
      · subst hz2; exact hyx
      · exact hy z hz2

theorem sortBySize_perm : ∀ l, (sortBySize l).Perm l := by
  intro l
  induction l with
  | nil => simp [sortBySize]
  | cons x xs ih =>
    simp only [sortBySize, List.foldr_cons]
    exact (insBySize_perm x _).trans (ih.cons x)

theorem sortBySize_pairwise : ∀ l,
    List.Pairwise (fun a b => sizeLe a b = true) (sortBySize l) := by
  intro l
  induction l with
  | nil => simp [sortBySize]
  | cons x xs ih =>
    simp only [sortBySize, List.foldr_cons]
    exact insBySize_pairwise x _ ih

theorem mapLookup_mem {β : Type} : ∀ (l : List (Nat × β)) (k : Nat) (v : β),
    mapLookup k l = some v → (k, v) ∈ l := by
  intro l
  induction l with
  | nil => intro k v h; exact absurd h (by simp [mapLookup])
  | cons q rest ih =>
    intro k v h
    unfold mapLookup at h
    split at h
    case isTrue heq =>
      cases h
      subst heq
      exact List.mem_cons_self _ _
    case isFalse hne =>
      exact List.mem_cons.mpr (Or.inr (ih k v h))

theorem mapLookup_of_mem {β : Type} : ∀ (l : List (Nat × β)), KeySorted l →
    ∀ p ∈ l, mapLookup p.1 l = some p.2 := by
  intro l
  induction l with
  | nil => intro _ p hp; exact absurd hp (List.not_mem_nil p)
  | cons q rest ih =>
    intro hks p hp
    have hq := (List.pairwise_cons.mp hks).1
    have hrest := (List.pairwise_cons.mp hks).2
    rcases List.mem_cons.mp hp with hp | hp
    · subst hp
      unfold mapLookup
      rw [if_pos rfl]
    · unfold mapLookup
      have hne : p.1 ≠ q.1 := by
        have := hq p hp
        omega
      rw [if_neg hne]
      exact ih hrest p hp

theorem mapLookup_of_mem_keys {β : Type} (l : List (Nat × β)) (hks : KeySorted l)
    (k : Nat) (hk : k ∈ l.map (·.1)) : ∃ v, mapLookup k l = some v := by
  rcases List.mem_map.mp hk with ⟨p, hp, hpe⟩
  exact ⟨p.2, hpe ▸ mapLookup_of_mem l hks p hp⟩

theorem rowSizeSeq_eq_map (rows : List (Nat × Row)) :
    ∀ bs, (∀ i ∈ bs, ∃ r, mapLookup i rows = some r) →
    rowSizeSeq rows bs = bs.map fun i => (i, (mapLookup i rows).getD []) := by
  intro bs
  induction bs with
  | nil => intro _; simp [rowSizeSeq]
  | cons i rest ih =>
    intro hall
    obtain ⟨r, hr⟩ := hall i (by simp)
    unfold rowSizeSeq
    rw [hr]
    simp only [List.map_cons]
    rw [ih (fun j hj => hall j (by simp [hj]))]
    simp [hr]

/-! ### C7: rows_by_size order and the RowSizeIterator -/

/-- C7: after a successful `TwoDArray::new`, `rows_by_size` lists exactly
the populated row indices (a permutation of the keys of `rows`), ordered by
strictly descending column population with ties broken by ascending row
index, and the `RowSizeIterator` yields precisely the corresponding
`(row_index, row)` pairs in that order. -/
theorem C7_rows_by_size : ∀ (wl : WordList) (alg : HashAlgorithm) (tda : TwoDArray),
    TwoDArray.new wl alg = some (.ok tda) →
    tda.rows_by_size.Perm (tda.rows.map (·.1))
  ∧ List.Pairwise (fun i j => popOf tda j < popOf tda i ∨
      (popOf tda i = popOf tda j ∧ i < j)) tda.rows_by_size
  ∧ rowSizeSeq tda.rows tda.rows_by_size
      = tda.rows_by_size.map fun i => (i, (mapLookup i tda.rows).getD []) := by
  intro wl alg tda h
  obtain ⟨hks, -⟩ := tda_rows_inv h
  obtain ⟨rcs, rows, lastIdx, -, hf, hg, htda⟩ := tda_new_ok h
  subst htda
  simp only at hks
  have hsp := sortBySize_perm (rows.map fun p => (p.2.length, p.1))
  have hperm : (((sortBySize (rows.map fun p => (p.2.length, p.1))).map (·.2)).Perm
      (rows.map (·.1))) := by
    have hm := hsp.map (·.2)
    simpa [List.map_map, Function.comp] using hm
  have hkeylt : List.Pairwise (· < ·) (rows.map (·.1)) :=
    List.pairwise_map.mpr hks
  have hkeynd : (rows.map (·.1)).Nodup :=
    hkeylt.imp Nat.ne_of_lt
  have hconn : ∀ p ∈ (rows.map fun p => (p.2.length, p.1)),
      p.1 = popOf ⟨rows, (sortBySize (rows.map fun p => (p.2.length, p.1))).map (·.2),
        wl.list.length, rows.length, lastIdx⟩ p.2 := by
    intro p hp
    rcases List.mem_map.mp hp with ⟨q, hq, hqe⟩
    subst hqe
    simp only [popOf]
    rw [mapLookup_of_mem rows hks q hq]
    rfl
  refine ⟨hperm, ?_, ?_⟩
  · have hpw := sortBySize_pairwise (rows.map fun p => (p.2.length, p.1))
    have hnd2 : ((sortBySize (rows.map fun p => (p.2.length, p.1))).map (·.2)).Nodup :=
      hperm.symm.nodup hkeynd
    have hndpw : List.Pairwise (fun p q : Nat × Nat => p.2 ≠ q.2)
        (sortBySize (rows.map fun p => (p.2.length, p.1))) :=
      List.pairwise_map.mp hnd2
    have hcomb := hpw.and hndpw
    refine List.pairwise_map.mpr ?_
    refine hcomb.imp_of_mem ?_
    intro a b ha hb hab
    have hamem := hsp.subset ha
    have hbmem := hsp.subset hb
    have hac := hconn a hamem
    have hbc := hconn b hbmem
    obtain ⟨hle, hne⟩ := hab
    rw [sizeLe_iff] at hle
    rw [← hac, ← hbc]
    rcases hle with hlt | ⟨heq, hle2⟩
    · exact Or.inl hlt
    · exact Or.inr ⟨heq, by omega⟩
  · refine rowSizeSeq_eq_map _ _ ?_
    intro i hi
    exact mapLookup_of_mem_keys rows hks i (hperm.subset hi)

/-- C7 witness: the theorem applied to the concrete TwoDArray of the word
list WORD, WIRE, ABLE, whose `rows_by_size` is `[22, 0]` (row 22 has two
columns, row 0 has one). -/
theorem C7_witness :
    tda3.rows_by_size.Perm (tda3.rows.map (·.1))
  ∧ List.Pairwise (fun i j => popOf tda3 j < popOf tda3 i ∨
      (popOf tda3 i = popOf tda3 j ∧ i < j)) tda3.rows_by_size
  ∧ rowSizeSeq tda3.rows tda3.rows_by_size
      = tda3.rows_by_size.map fun i => (i, (mapLookup i tda3.rows).getD []) :=
  C7_rows_by_size wl3 algDefault tda3 rfl

/-! ### C5: the per-row displacement search -/

theorem placeRow_spec {N : Nat} {row : Row} {c0 : Nat} :
    ∀ (fuel : Nat) (arr unused : List Nat) (d : Int),
    0 ≤ d + c0 → d + (c0 : Int) < N → ((N : Int) - (d + c0)).toNat < fuel →
    ((∀ e : Error, placeRow N row c0 fuel arr unused d = .failed e ↔
        (e = ⟨.OneDPackedArrayError "unable to minimally pack array"⟩ ∧
         ∀ d2 : Int, d ≤ d2 → d2 + c0 < N → rejectsAt arr unused row d2))
    ∧ (∀ (arr' unused' : List Nat) (d' : Int),
        placeRow N row c0 fuel arr unused d = .placed arr' unused' d' →
        d ≤ d' ∧ d' + c0 < N ∧ insertsAt arr unused row d' arr' unused' ∧
        ∀ d2 : Int, d ≤ d2 → d2 < d' → rejectsAt arr unused row d2)
    ∧ placeRow N row c0 fuel arr unused d ≠ .fuelOut) := by
  intro fuel
  induction fuel with
  | zero =>
    intro arr unused d h0 h1 h2
    omega
  | succ fuel ih =>
    intro arr unused d h0 h1 h2
    rcases hni : not_inserted arr unused row d with _ | ⟨b, a, u⟩
    · -- panic: result is .panicked
      have hres : placeRow N row c0 (fuel + 1) arr unused d = .panicked := by
        simp [placeRow, hni]
      rw [hres]
      refine ⟨?_, ?_, by simp⟩
      · intro e
        constructor
        · intro hcontra; exact absurd hcontra (by simp)
        · rintro ⟨-, hall⟩
          have := hall d le_rfl h1
          rw [rejectsAt, hni] at this
          exact absurd this (by simp)
      · intro arr' unused' d' hcontra
        exact absurd hcontra (by simp)
    · cases b with
      | false =>
        have hres : placeRow N row c0 (fuel + 1) arr unused d = .placed a u d := by
          simp [placeRow, hni]
        rw [hres]
        refine ⟨?_, ?_, by simp⟩
        · intro e
          constructor
          · intro hcontra; exact absurd hcontra (by simp)
          · rintro ⟨-, hall⟩
            have := hall d le_rfl h1
            rw [rejectsAt, hni] at this
            exact absurd this (by simp)
        · intro arr' unused' d' hpl
          have h3 : a = arr' ∧ u = unused' ∧ d = d' := by
            cases hpl; exact ⟨rfl, rfl, rfl⟩
          obtain ⟨rfl, rfl, rfl⟩ := h3
          exact ⟨le_rfl, h1, hni, fun d2 hle hlt => absurd (lt_of_le_of_lt hle hlt)
            (lt_irrefl d)⟩
      | true =>
        obtain ⟨ha, hu⟩ := not_inserted_true_eq hni
        rw [ha, hu] at hni
        have hrej : rejectsAt arr unused row d := hni
        by_cases hb : d + 1 + (c0 : Int) ≥ (N : Int)
        · have hres : placeRow N row c0 (fuel + 1) arr unused d
              = .failed ⟨.OneDPackedArrayError "unable to minimally pack array"⟩ := by
            simp [placeRow, hni, hb]
          rw [hres]
          refine ⟨?_, ?_, by simp⟩
          · intro e
            constructor
            · intro he
              have he2 : e = ⟨.OneDPackedArrayError "unable to minimally pack array"⟩ := by
                cases he; rfl
              subst he2
              refine ⟨rfl, ?_⟩
              intro d2 hle hlt
              have : d2 = d := by omega
              subst this
              exact hrej
            · rintro ⟨he, -⟩
              rw [he]
          · intro arr' unused' d' hcontra
            exact absurd hcontra (by simp)
        · push_neg at hb
          have hres : placeRow N row c0 (fuel + 1) arr unused d
              = placeRow N row c0 fuel arr unused (d + 1) := by
            simp [placeRow, hni, not_le.mpr hb]
          rw [hres]
          obtain ⟨ihf, ihp, ihno⟩ := ih arr unused (d + 1) (by omega) hb (by omega)
          refine ⟨?_, ?_, ihno⟩
          · intro e
            rw [ihf e]
            constructor
            · rintro ⟨he, hall⟩
              refine ⟨he, ?_⟩
              intro d2 hle hlt
              rcases eq_or_lt_of_le hle with heq | hlt2
              · subst heq; exact hrej
              · exact hall d2 (by omega) hlt
            · rintro ⟨he, hall⟩
              exact ⟨he, fun d2 hle hlt => hall d2 (by omega) hlt⟩
          · intro arr' unused' d' hpl
            obtain ⟨hle, hlt, hins, hall⟩ := ihp arr' unused' d' hpl
            refine ⟨by omega, hlt, hins, ?_⟩
            intro d2 h2le h2lt
            rcases eq_or_lt_of_le h2le with heq | hlt2
            · subst heq; exact hrej
            · exact hall d2 (by omega) h2lt

/-- C5: for a row whose smallest column index is `c0`, the displacement
search starts at `d₀ = min(unused) − c0` (the head of the sorted unused set
is its minimum) and bumps `d` by one on each rejection; the search returns
the error "unable to minimally pack array" exactly when every displacement
`d` with `d₀ ≤ d` and `d + c0 < N` is rejected, an accepted displacement is
the least non-rejected one in that interval, and with the fuel `N + 1` used
by `OneDPackedArray::new` the loop always terminates (never runs out of
fuel). -/
theorem C5_search : ∀ (N : Nat) (row : Row) (c0 : Nat) (arr unused : List Nat)
    (u0 : Nat), List.Pairwise (· < ·) unused → unused.head? = some u0 → u0 < N →
    ((∀ x ∈ unused, u0 ≤ x)
    ∧ (∀ e : Error,
        placeRow N row c0 (N + 1) arr unused (-(c0 : Int) + (u0 : Int)) = .failed e ↔
        (e = ⟨.OneDPackedArrayError "unable to minimally pack array"⟩ ∧
         ∀ d2 : Int, -(c0 : Int) + (u0 : Int) ≤ d2 → d2 + c0 < N →
           rejectsAt arr unused row d2))
    ∧ (∀ (arr' unused' : List Nat) (d' : Int),
        placeRow N row c0 (N + 1) arr unused (-(c0 : Int) + (u0 : Int))
            = .placed arr' unused' d' →
        -(c0 : Int) + (u0 : Int) ≤ d' ∧ d' + c0 < N ∧
        insertsAt arr unused row d' arr' unused' ∧
        ∀ d2 : Int, -(c0 : Int) + (u0 : Int) ≤ d2 → d2 < d' →
          rejectsAt arr unused row d2)
    ∧ placeRow N row c0 (N + 1) arr unused (-(c0 : Int) + (u0 : Int)) ≠ .fuelOut) := by
  intro N row c0 arr unused u0 hsort hhead hu0
  have hmin : ∀ x ∈ unused, u0 ≤ x := by
    cases unused with
    | nil => exact absurd hhead (by simp)
    | cons y ys =>
      have hy : y = u0 := by simpa using hhead
      subst hy
      intro x hx
      rcases List.mem_cons.mp hx with hx | hx
      · omega
      · exact le_of_lt ((List.pairwise_cons.mp hsort).1 x hx)
  obtain ⟨hf, hp, hno⟩ := @placeRow_spec N row c0
    (N + 1) arr unused (-(c0 : Int) + (u0 : Int)) (by omega) (by omega) (by omega)
  exact ⟨hmin, hf, hp, hno⟩

/-- C5 witness: the theorem applied to the single row of the WORD/WORF
TwoDArray (columns 3 and 5, two entries, N = 2): the search starting at
`d₀ = 0 − 3 = −3` rejects every displacement and fails. -/
theorem C5_witness :
    ((∀ x ∈ [0, 1], (0 : Nat) ≤ x)
    ∧ (∀ e : Error,
        placeRow 2 rowWW 3 3 [0, 0] [0, 1] (-(3 : Int) + (0 : Int)) = .failed e ↔
        (e = ⟨.OneDPackedArrayError "unable to minimally pack array"⟩ ∧
         ∀ d2 : Int, -(3 : Int) + (0 : Int) ≤ d2 → d2 + 3 < 2 →
           rejectsAt [0, 0] [0, 1] rowWW d2))
    ∧ (∀ (arr' unused' : List Nat) (d' : Int),
        placeRow 2 rowWW 3 3 [0, 0] [0, 1] (-(3 : Int) + (0 : Int))
            = .placed arr' unused' d' →
        -(3 : Int) + (0 : Int) ≤ d' ∧ d' + 3 < 2 ∧
        insertsAt [0, 0] [0, 1] rowWW d' arr' unused' ∧
        ∀ d2 : Int, -(3 : Int) + (0 : Int) ≤ d2 → d2 < d' →
          rejectsAt [0, 0] [0, 1] rowWW d2)
    ∧ placeRow 2 rowWW 3 3 [0, 0] [0, 1] (-(3 : Int) + (0 : Int)) ≠ .fuelOut) :=
  C5_search 2 rowWW 3 [0, 0] [0, 1] 0 (by decide) rfl (by decide)

/-! ### C10: the packing computation never panics -/

theorem adjust_index_eq (c : Nat) (d : Int) (n : Nat) (h0 : 0 ≤ (c : Int) + d) :
    adjust_index c d n = some (((c : Int) + d).tmod n).toNat := by
  unfold adjust_index
  rw [if_pos (Int.tmod_nonneg _ h0)]

theorem adjust_index_lt (c : Nat) (d : Int) (n : Nat) (h0 : 0 ≤ (c : Int) + d)
    (hn : 0 < n) : (((c : Int) + d).tmod n).toNat < n := by
  have h1 := Int.tmod_nonneg (n : Int) h0
  have h2 := Int.tmod_lt_of_pos ((c : Int) + d) (show (0 : Int) < n by omega)
  omega

theorem adjustAll_eq (d : Int) (n : Nat) : ∀ l : List Nat,
    (∀ c ∈ l, 0 ≤ (c : Int) + d) →
    l.mapM (fun c => adjust_index c d n)
      = some (l.map fun c : Nat => (((c : Int) + d).tmod n).toNat) := by
  intro l
  induction l with
  | nil => intro _; rfl
  | cons c cs ih =>
    intro hall
    rw [List.mapM_cons]
    rw [adjust_index_eq c d n (hall c (by simp))]
    rw [ih (fun x hx => hall x (by simp [hx]))]
    rfl

theorem not_inserted_no_panic {arr unused : List Nat} {row : Row} {d : Int}
    (hall : ∀ c ∈ rowColIndices row, 0 ≤ (c : Int) + d) :
    not_inserted arr unused row d ≠ none := by
  unfold not_inserted
  rw [adjustAll_eq d arr.length (rowColIndices row) hall]
  simp only
  split
  · simp
  · split <;> simp

theorem placeRow_no_panic {N : Nat} {row : Row} {c0 : Nat}
    (hall : ∀ c ∈ rowColIndices row, (c0 : Int) ≤ c) :
    ∀ (fuel : Nat) (arr unused : List Nat) (d : Int), 0 ≤ d + c0 →
    placeRow N row c0 fuel arr unused d ≠ .panicked := by
  intro fuel
  induction fuel with
  | zero => intro arr unused d _; simp [placeRow]
  | succ fuel ih =>
    intro arr unused d h0
    have hall2 : ∀ c ∈ rowColIndices row, 0 ≤ (c : Int) + d := by
      intro c hc
      have := hall c hc
      omega
    rcases hni : not_inserted arr unused row d with _ | ⟨b, a, u⟩
    · exact absurd hni (not_inserted_no_panic hall2)
    · cases b with
      | false => simp [placeRow, hni]
      | true =>
        by_cases hb : d + 1 + (c0 : Int) ≥ (N : Int)
        · simp [placeRow, hni, hb]
        · have hres : placeRow N row c0 (fuel + 1) arr unused d
              = placeRow N row c0 fuel arr unused (d + 1) := by
            simp [placeRow, hni, hb]
          rw [hres]
          exact ih arr unused (d + 1) (by omega)

theorem head_le_of_keySorted {row : Row} {cell0 : Nat × Nat}
    (hks : KeySorted row) (hh : row.head? = some cell0) :
    ∀ c ∈ rowColIndices row, cell0.1 ≤ c := by
  cases row with
  | nil => exact absurd hh (by simp)
  | cons p rt =>
    have hp : p = cell0 := by simpa using hh
    subst hp
    intro c hc
    simp only [rowColIndices, List.map_cons, List.mem_cons] at hc
    rcases hc with hc | hc
    · omega
    · rcases List.mem_map.mp hc with ⟨q, hq, hqe⟩
      have := (List.pairwise_cons.mp hks).1 q hq
      omega

theorem packRows_no_none {N : Nat} {rows : List (Nat × Row)}
    (hcols : ColsSorted rows) :
    ∀ (bs : List Nat) (arr unused : List Nat) (wrk : List (Nat × Int)),
    (∀ x ∈ unused, x < N) →
    packRows N rows bs arr unused wrk ≠ none := by
  intro bs
  induction bs with
  | nil => intro arr unused wrk _; simp [packRows]
  | cons ri rest ih =>
    intro arr unused wrk hbound
    unfold packRows
    rcases hl : mapLookup ri rows with _ | row
    · simp
    · simp only
      rcases hh : row.head? with _ | cell0
      · exact ih arr unused wrk hbound
      · simp only
        rcases hu : unused.head? with _ | u0
        · simp
        · simp only
          have hu0mem : u0 ∈ unused := by
            cases unused with
            | nil => exact absurd hu (by simp)
            | cons y ys => simp_all
          have hu0 : u0 < N := hbound u0 hu0mem
          have hrowmem : (ri, row) ∈ rows := mapLookup_mem rows ri row hl
          have hks : KeySorted row := hcols (ri, row) hrowmem
          have hall := head_le_of_keySorted hks hh
          rcases hp : placeRow N row cell0.1 (N + 1) arr unused
              (-(cell0.1 : Int) + (u0 : Int)) with _ | e | ⟨a, u, d⟩ | _
          · exact absurd hp (placeRow_no_panic
              (fun c hc => by exact_mod_cast hall c hc) (N + 1) arr unused _ (by omega))
          · simp
          · obtain ⟨-, hsub⟩ := placeRow_placed_state hp
            exact ih a u (mapInsert ri d wrk).2 (fun x hx => hbound x (hsub x hx))
          · obtain ⟨-, -, hno⟩ := @placeRow_spec N row cell0.1
              (N + 1) arr unused (-(cell0.1 : Int) + (u0 : Int))
              (by omega) (by omega) (by omega)
            exact absurd hp hno

/-- C10: invoked from `OneDPackedArray::new` on a TwoDArray built by
`TwoDArray::new`, every `adjust_index` call satisfies `index + adj ≥ 0`
(the shift starts at `min(unused) − c0 ≥ −c0` and only grows, and every
column index of the row is at least `c0`), so the negative-index panic, the
conversion panics, and fuel exhaustion are all unreachable: the packing
computation is total. -/
theorem C10_no_panic : ∀ (wl : WordList) (alg : HashAlgorithm) (tda : TwoDArray),
    TwoDArray.new wl alg = some (.ok tda) →
    OneDPackedArray.new tda ≠ none := by
  intro wl alg tda h hcontra
  obtain ⟨-, hcols⟩ := tda_rows_inv h
  unfold OneDPackedArray.new at hcontra
  rcases hp : packRows tda.num_entries tda.rows tda.rows_by_size
      (List.replicate tda.num_entries 0) (List.range tda.num_entries) [] with _ | r
  · exact absurd hp (packRows_no_none hcols tda.rows_by_size _ _ [] (by simp))
  · rw [hp] at hcontra
    rcases r with e | ⟨arr, unusedF, wrk⟩ <;> simp at hcontra

/-- C10 witness: the theorem applied to the concrete TwoDArray of the
five-word packing example, whose packing succeeds (and in particular does
not panic). -/
theorem C10_witness : OneDPackedArray.new tda5 ≠ none :=
  C10_no_panic wl5 algDefault tda5 rfl

/-! ### Lemmas about dedupSort and writeZip -/

theorem setInsert_mem : ∀ (l : List Nat) (x z : Nat),
    z ∈ setInsert x l ↔ z = x ∨ z ∈ l := by
  intro l
  induction l with
  | nil => intro x z; simp [setInsert]
  | cons y ys ih =>
    intro x z
    unfold setInsert
    split
    · simp
    · split
      case isTrue heq => subst heq; simp
      case isFalse hne =>
        simp only [List.mem_cons, ih]
        tauto

theorem setInsert_sorted : ∀ (l : List Nat) (x : Nat),
    List.Pairwise (· < ·) l → List.Pairwise (· < ·) (setInsert x l) := by
  intro l
  induction l with
  | nil => intro x _; simp [setInsert]
  | cons y ys ih =>
    intro x hp
    have hy := (List.pairwise_cons.mp hp).1
    have hys := (List.pairwise_cons.mp hp).2
    unfold setInsert
    split
    case isTrue hlt =>
      refine List.pairwise_cons.mpr ⟨?_, hp⟩
      intro z hz
      rcases List.mem_cons.mp hz with hz | hz
      · omega
      · have := hy z hz; omega
    case isFalse hlt =>
      split
      case isTrue heq => exact hp
      case isFalse hne =>
        refine List.pairwise_cons.mpr ⟨?_, ih x hys⟩
        intro z hz
        rcases (setInsert_mem ys x z).mp hz with hz | hz
        · omega
        · exact hy z hz

theorem dedupSort_sorted_mem : ∀ (l acc : List Nat), List.Pairwise (· < ·) acc →
    (List.Pairwise (· < ·) (l.foldl (fun s x => setInsert x s) acc)
    ∧ ∀ z, z ∈ l.foldl (fun s x => setInsert x s) acc ↔ z ∈ acc ∨ z ∈ l) := by
  intro l
  induction l with
  | nil => intro acc h; exact ⟨h, fun z => by simp⟩
  | cons x xs ih =>
    intro acc h
    simp only [List.foldl_cons]
    obtain ⟨h1, h2⟩ := ih (setInsert x acc) (setInsert_sorted acc x h)
    refine ⟨h1, ?_⟩
    intro z
    rw [h2 z, setInsert_mem]
    simp only [List.mem_cons]
    tauto

theorem dedupSort_sorted (l : List Nat) : List.Pairwise (· < ·) (dedupSort l) :=
  (dedupSort_sorted_mem l [] List.Pairwise.nil).1

theorem dedupSort_mem (l : List Nat) (z : Nat) : z ∈ dedupSort l ↔ z ∈ l := by
  unfold dedupSort
  rw [(dedupSort_sorted_mem l [] List.Pairwise.nil).2 z]
  simp

theorem dedupSort_nodup (l : List Nat) : (dedupSort l).Nodup :=
  (dedupSort_sorted l).imp Nat.ne_of_lt

theorem dedupSort_perm_of_length (l : List Nat)
    (h : (dedupSort l).length = l.length) : (dedupSort l).Perm l := by
  have hsub : dedupSort l ⊆ l := fun z hz => (dedupSort_mem l z).mp hz
  have hsp := (dedupSort_nodup l).subperm hsub
  exact hsp.perm_of_length_le (by omega)

theorem writeZip_get_not_mem : ∀ (T vs : List Nat) (arr : List Nat) (p : Nat),
    p ∉ T → (writeZip arr vs T)[p]? = arr[p]? := by
  intro T
  induction T with
  | nil => intro vs arr p _; cases vs <;> rfl
  | cons t ts ih =>
    intro vs arr p hp
    cases vs with
    | nil => rfl
    | cons v vs' =>
      have hpt : p ≠ t := fun he => hp (by simp [he])
      have hpts : p ∉ ts := fun hm => hp (by simp [hm])
      show (writeZip (arr.set t v) vs' ts)[p]? = _
      rw [ih vs' (arr.set t v) p hpts]
      exact List.getElem?_set_ne (Ne.symm hpt)

theorem writeZip_map_get : ∀ (T vs : List Nat) (arr : List Nat), T.Nodup →
    (∀ t ∈ T, t < arr.length) → vs.length = T.length →
    T.map (fun t => (writeZip arr vs T).getD t 0) = vs := by
  intro T
  induction T with
  | nil =>
    intro vs arr _ _ hlen
    cases vs with
    | nil => rfl
    | cons v vs' => exact absurd hlen (by simp)
  | cons t ts ih =>
    intro vs arr hnd hbound hlen
    cases vs with
    | nil => exact absurd hlen (by simp)
    | cons v vs' =>
      have htts : t ∉ ts := (List.nodup_cons.mp hnd).1
      have hts : ts.Nodup := (List.nodup_cons.mp hnd).2
      show (t :: ts).map (fun x => (writeZip (arr.set t v) vs' ts).getD x 0) = v :: vs'
      simp only [List.map_cons, List.cons.injEq]
      constructor
      · rw [List.getD_eq_getElem?_getD, writeZip_get_not_mem ts vs' (arr.set t v) t htts]
        rw [List.getElem?_set_self (by simpa using hbound t (by simp))]
        rfl
      · exact ih vs' (arr.set t v) hts
          (fun x hx => by simpa using hbound x (by simp [hx]))
          (by simpa using hlen)

theorem set_append_old_perm : ∀ (arr : List Nat) (t v : Nat), t < arr.length →
    (arr.set t v ++ [arr.getD t 0]).Perm (v :: arr) := by
  intro arr
  induction arr with
  | nil => intro t v h; simp at h
  | cons a rest ih =>
    intro t v h
    cases t with
    | zero =>
      show ((v :: rest) ++ [a]).Perm (v :: a :: rest)
      exact (List.perm_append_singleton a (v :: rest)).trans (List.Perm.swap v a rest)
    | succ t' =>
      show ((a :: rest.set t' v) ++ [rest.getD t' 0]).Perm (v :: a :: rest)
      have hih := ih t' v (by simpa using h)
      exact (hih.cons a).trans (List.Perm.swap v a rest)

theorem writeZip_perm : ∀ (T vs : List Nat) (arr : List Nat), T.Nodup →
    (∀ t ∈ T, t < arr.length ∧ arr.getD t 0 = 0) → vs.length = T.length →
    (writeZip arr vs T ++ List.replicate T.length 0).Perm (vs ++ arr) := by
  intro T
  induction T with
  | nil =>
    intro vs arr _ _ hlen
    cases vs with
    | nil => simp [writeZip]
    | cons v vs' => exact absurd hlen (by simp)
  | cons t ts ih =>
    intro vs arr hnd hbound hlen
    cases vs with
    | nil => exact absurd hlen (by simp)
    | cons v vs' =>
      have htts : t ∉ ts := (List.nodup_cons.mp hnd).1
      have hts : ts.Nodup := (List.nodup_cons.mp hnd).2
      have htb := hbound t (by simp)
      have hih := ih vs' (arr.set t v) hts
        (fun x hx => by
          refine ⟨by simpa using (hbound x (by simp [hx])).1, ?_⟩
          have hxt : x ≠ t := fun he => htts (he ▸ hx)
          rw [List.getD_eq_getElem?_getD, List.getElem?_set_ne (Ne.symm hxt)]
          rw [← List.getD_eq_getElem?_getD]
          exact (hbound x (by simp [hx])).2)
        (by simpa using hlen)
      show (writeZip (arr.set t v) vs' ts ++ List.replicate (ts.length + 1) 0).Perm
        ((v :: vs') ++ arr)
      have s1 : writeZip (arr.set t v) vs' ts ++ List.replicate (ts.length + 1) 0
          = (writeZip (arr.set t v) vs' ts ++ List.replicate ts.length 0) ++ [0] := by
        rw [List.replicate_succ' ts.length 0, List.append_assoc]
      have s2 := hih.append_right [0]
      have t2 : ((vs' ++ arr.set t v) ++ [arr.getD t 0]).Perm (vs' ++ (v :: arr)) := by
        rw [List.append_assoc]
        exact (set_append_old_perm arr t v htb.1).append_left vs'
      rw [htb.2] at t2
      have s5 : (vs' ++ (v :: arr)).Perm (v :: (vs' ++ arr)) := List.perm_middle
      rw [s1]
      exact (s2.trans t2).trans s5

theorem insertsAt_elim {arr unused : List Nat} {row : Row} {d : Int}
    {arr' unused' : List Nat}
    (hall : ∀ c ∈ rowColIndices row, 0 ≤ (c : Int) + d)
    (h : insertsAt arr unused row d arr' unused') :
    (targetsOf row d arr.length).length = (rowColIndices row).length ∧
    (∀ t ∈ targetsOf row d arr.length, t ∈ unused) ∧
    arr' = writeZip arr (rowColValues row) (targetsOf row d arr.length) ∧
    unused' = unused.filter (fun i => ¬ (targetsOf row d arr.length).contains i) := by
  unfold targetsOf
  unfold insertsAt not_inserted at h
  rw [adjustAll_eq d arr.length (rowColIndices row) hall] at h
  simp only at h
  split at h
  · exact absurd h (by simp)
  case isFalse hlen =>
    split at h
    case isTrue hany => exact absurd h (by simp)
    case isFalse hany =>
      simp only [Option.some.injEq, Prod.mk.injEq, true_and] at h
      obtain ⟨ha, hu⟩ := h
      refine ⟨by omega, ?_, ha.symm, hu.symm⟩
      intro t ht
      have hct : unused.contains t = true := by
        by_contra hc
        exact hany (List.any_eq_true.mpr ⟨t, ht, by simpa using hc⟩)
      simpa using hct

theorem targetsOf_bounds {row : Row} {d : Int} {n : Nat}
    (hall : ∀ c ∈ rowColIndices row, 0 ≤ (c : Int) + d) (hn : 0 < n) :
    ∀ t ∈ targetsOf row d n, t < n := by
  intro t ht
  rw [targetsOf, dedupSort_mem, List.mem_map] at ht
  obtain ⟨c, hc, hce⟩ := ht
  rw [← hce]
  exact adjust_index_lt c d n (hall c hc) hn

theorem row_placement {arr unused : List Nat} {row : Row} {d : Int}
    {arr' unused' : List Nat}
    (hall : ∀ c ∈ rowColIndices row, 0 ≤ (c : Int) + d)
    (hlen0 : 0 < arr.length)
    (h : insertsAt arr unused row d arr' unused') :
    ((targetsOf row d arr.length).Perm
        ((rowColIndices row).map fun c : Nat => (((c : Int) + d).tmod arr.length).toNat))
    ∧ (targetsOf row d arr.length).map (fun t => arr'.getD t 0) = rowColValues row
    ∧ (∀ p, p ∉ targetsOf row d arr.length → arr'[p]? = arr[p]?)
    ∧ unused' = unused.filter (fun i => ¬ (targetsOf row d arr.length).contains i) := by
  obtain ⟨hlen, hsub, ha, hu⟩ := insertsAt_elim hall h
  have hperm : (targetsOf row d arr.length).Perm
      ((rowColIndices row).map fun c : Nat => (((c : Int) + d).tmod arr.length).toNat) := by
    unfold targetsOf
    apply dedupSort_perm_of_length
    rw [List.length_map]
    exact hlen
  refine ⟨hperm, ?_, ?_, hu⟩
  · rw [ha]
    exact writeZip_map_get _ _ _ (dedupSort_nodup _)
      (targetsOf_bounds hall hlen0)
      (by rw [hlen]; simp [rowColValues, rowColIndices])
  · intro p hp
    rw [ha]
    exact writeZip_get_not_mem _ _ _ _ hp

theorem length_filter_not_contains {unused T : List Nat} (hnd : unused.Nodup)
    (hTnd : T.Nodup) (hsub : ∀ t ∈ T, t ∈ unused) :
    (unused.filter (fun i => ¬ T.contains i)).length = unused.length - T.length ∧
    T.length ≤ unused.length := by
  have hperm := List.filter_append_perm (fun i => (T.contains i : Bool)) unused
  have h1 : (unused.filter fun i => (T.contains i : Bool)).Perm T := by
    rw [List.perm_ext_iff_of_nodup (hnd.filter _) hTnd]
    intro a
    simp only [List.mem_filter]
    constructor
    · rintro ⟨-, hc⟩
      simpa using hc
    · intro ha
      exact ⟨hsub a ha, by simpa using ha⟩
  have h2 : unused.filter (fun i => ¬ T.contains i)
      = unused.filter fun x => ! (T.contains x : Bool) := by
    apply List.filter_congr
    intro x _
    simp
  have hl := hperm.length_eq
  rw [List.length_append] at hl
  have hft := h1.length_eq
  constructor
  · rw [h2]; omega
  · omega

theorem targetsOf_nodup (row : Row) (d : Int) (n : Nat) :
    (targetsOf row d n).Nodup := by
  unfold targetsOf
  exact dedupSort_nodup _

theorem perm_rot (A B C : List Nat) : (A ++ (B ++ C)).Perm (B ++ (A ++ C)) := by
  rw [← List.append_assoc, ← List.append_assoc]
  exact List.perm_append_comm.append_right C

theorem packRows_perm {N : Nat} {rows : List (Nat × Row)} (hcols : ColsSorted rows) :
    ∀ (bs arr unused : List Nat) (wrk : List (Nat × Int))
      (arrF unusedF : List Nat) (wrkF : List (Nat × Int)),
    packRows N rows bs arr unused wrk = some (.ok (arrF, unusedF, wrkF)) →
    arr.length = N →
    List.Pairwise (· < ·) unused →
    (∀ x ∈ unused, x < N) →
    (∀ x ∈ unused, arr.getD x 0 = 0) →
    (∀ i ∈ bs, ∃ r, mapLookup i rows = some r) →
    (valsOf rows bs ++ arr).Perm
        (arrF ++ List.replicate (unused.length - unusedF.length) 0)
    ∧ unusedF.length ≤ unused.length := by
  intro bs
  induction bs with
  | nil =>
    intro arr unused wrk arrF unusedF wrkF h hlen hsort hbound hzero hbs
    simp only [packRows, Option.some.injEq, Except.ok.injEq, Prod.mk.injEq] at h
    obtain ⟨h1, h2, -⟩ := h
    subst h1
    subst h2
    refine ⟨?_, le_rfl⟩
    simp [valsOf]
  | cons ri rest ih =>
    intro arr unused wrk arrF unusedF wrkF h hlen hsort hbound hzero hbs
    obtain ⟨row, hrow⟩ := hbs ri (by simp)
    unfold packRows at h
    rw [hrow] at h
    simp only at h
    rcases hh : row.head? with _ | cell0
    · rw [hh] at h
      have hrowe : row = [] := List.head?_eq_none_iff.mp hh
      obtain ⟨ihp, ihl⟩ := ih arr unused wrk arrF unusedF wrkF h hlen hsort hbound hzero
        (fun i hi => hbs i (by simp [hi]))
      refine ⟨?_, ihl⟩
      have hv : valsOf rows (ri :: rest) = valsOf rows rest := by
        simp [valsOf, hrow, hrowe, rowColValues]
      rw [hv]
      exact ihp
    · rw [hh] at h
      simp only at h
      rcases hu : unused.head? with _ | u0
      · rw [hu] at h; exact absurd h (by simp)
      · rw [hu] at h
        simp only at h
        have hu0mem : u0 ∈ unused := by
          cases unused with
          | nil => exact absurd hu (by simp)
          | cons y ys => simp_all
        have hu0 : u0 < N := hbound u0 hu0mem
        have hrowmem := mapLookup_mem rows ri row hrow
        have hks := hcols (ri, row) hrowmem
        have hcle := head_le_of_keySorted hks hh
        rcases hp : placeRow N row cell0.1 (N + 1) arr unused
            (-(cell0.1 : Int) + (u0 : Int)) with _ | e | ⟨a, u, d⟩ | _
        · rw [hp] at h; exact absurd h (by simp)
        · rw [hp] at h; exact absurd h (by simp)
        · rw [hp] at h
          obtain ⟨hdle, hdlt, hins, -⟩ := (@placeRow_spec N row cell0.1 (N + 1) arr unused (-(cell0.1 : Int) + (u0 : Int))
            (by omega) (by omega) (by omega)).2.1 a u d hp
          have hall : ∀ c ∈ rowColIndices row, 0 ≤ (c : Int) + d := by
            intro c hc
            have h1 := hcle c hc
            have h2 : (cell0.1 : Int) ≤ (c : Int) := by exact_mod_cast h1
            omega
          obtain ⟨hlenT, hsubT, ha, hufilter⟩ := insertsAt_elim hall hins
          have hTnd := targetsOf_nodup row d arr.length
          have hTbound : ∀ t ∈ targetsOf row d arr.length, t < N := by
            intro t ht
            have := targetsOf_bounds hall (by omega) t ht
            omega
          have hvalslen : (rowColValues row).length = (targetsOf row d arr.length).length := by
            rw [hlenT]
            simp [rowColValues, rowColIndices]
          have hstep := writeZip_perm (targetsOf row d arr.length) (rowColValues row) arr
            hTnd
            (fun t ht => ⟨by rw [hlen]; exact hTbound t ht,
              hzero t (hsubT t ht)⟩)
            hvalslen
          rw [← ha] at hstep
          have hnd : unused.Nodup := hsort.imp Nat.ne_of_lt
          obtain ⟨hflen, hTle⟩ := length_filter_not_contains hnd hTnd hsubT
          have halen : a.length = N := by
            rw [ha, writeZip_length, hlen]
          have husort : List.Pairwise (· < ·) u := by
            rw [hufilter]
            exact hsort.filter _
          have hubound : ∀ x ∈ u, x < N := by
            rw [hufilter]
            intro x hx
            exact hbound x (List.mem_of_mem_filter hx)
          have huzero : ∀ x ∈ u, a.getD x 0 = 0 := by
            intro x hx
            rw [hufilter] at hx
            have hxu := List.mem_of_mem_filter hx
            have hxnT : x ∉ targetsOf row d arr.length := by
              have := (List.mem_filter.mp hx).2
              simpa using this
            rw [ha, List.getD_eq_getElem?_getD,
              writeZip_get_not_mem _ _ arr x hxnT, ← List.getD_eq_getElem?_getD]
            exact hzero x hxu
          have hulen : u.length = unused.length - (targetsOf row d arr.length).length := by
            rw [hufilter]
            exact hflen
          obtain ⟨ihp, ihl⟩ := ih a u _ arrF unusedF wrkF h halen husort hubound huzero
            (fun i hi => hbs i (by simp [hi]))
          refine ⟨?_, by omega⟩
          have hv : valsOf rows (ri :: rest) = rowColValues row ++ valsOf rows rest := by
            simp [valsOf, hrow]
          rw [hv]
          have c1 : ((rowColValues row ++ valsOf rows rest) ++ arr).Perm
              (valsOf rows rest ++ (rowColValues row ++ arr)) := by
            rw [List.append_assoc]
            exact perm_rot _ _ _
          have c2 : (valsOf rows rest ++ (rowColValues row ++ arr)).Perm
              (valsOf rows rest ++ (a ++ List.replicate (targetsOf row d arr.length).length 0)) :=
            hstep.symm.append_left _
          have c3 : (valsOf rows rest ++ (a ++ List.replicate (targetsOf row d arr.length).length 0))
              = (valsOf rows rest ++ a) ++ List.replicate (targetsOf row d arr.length).length 0 :=
            (List.append_assoc _ _ _).symm
          have c4 : ((valsOf rows rest ++ a) ++ List.replicate (targetsOf row d arr.length).length 0).Perm
              ((arrF ++ List.replicate (u.length - unusedF.length) 0)
                ++ List.replicate (targetsOf row d arr.length).length 0) :=
            ihp.append_right _
          have c5 : (arrF ++ List.replicate (u.length - unusedF.length) 0)
                ++ List.replicate (targetsOf row d arr.length).length 0
              = arrF ++ List.replicate
                  ((u.length - unusedF.length) + (targetsOf row d arr.length).length) 0 := by
            rw [List.replicate_add, List.append_assoc]
          have c6 : (u.length - unusedF.length) + (targetsOf row d arr.length).length
              = unused.length - unusedF.length := by omega
          exact ((((c1.trans c2).trans (c3 ▸ List.Perm.refl _)).trans c4).trans
            ((c5.trans (by rw [c6])) ▸ List.Perm.refl _))
        · rw [hp] at h; exact absurd h (by simp)

/-! ### Cell-value accounting for the TwoDArray -/

theorem mapInsert_values : ∀ (cols : Row) (c v : Nat),
    (mapInsert c v cols).1 = none →
    (rowColValues (mapInsert c v cols).2).Perm (v :: rowColValues cols) := by
  intro cols
  induction cols with
  | nil => intro c v _; simp [mapInsert, rowColValues]
  | cons q rest ih =>
    intro c v hnone
    unfold mapInsert at hnone ⊢
    split at hnone
    case isTrue hlt =>
      rw [if_pos hlt]
      simp [rowColValues]
    case isFalse hlt =>
      split at hnone
      case isTrue heq =>
        exact absurd hnone (by simp)
      case isFalse hne =>
        rw [if_neg hlt, if_neg hne]
        simp only at hnone
        have hrec := ih c v hnone
        show (rowColValues (q :: (mapInsert c v rest).2)).Perm _
        have he : rowColValues (q :: (mapInsert c v rest).2)
            = q.2 :: rowColValues (mapInsert c v rest).2 := rfl
        rw [he]
        exact (hrec.cons q.2).trans (List.Perm.swap v q.2 (rowColValues rest))

theorem cellValues_cons (p : Nat × Row) (rest : List (Nat × Row)) :
    cellValues (p :: rest) = rowColValues p.2 ++ cellValues rest := by
  simp [cellValues]

theorem insertCell_values {wl : List Word} {i r c : Nat} :
    ∀ (rows rows' : List (Nat × Row)), insertCell wl i r c rows = .ok rows' →
    (cellValues rows').Perm ((i + 1) :: cellValues rows) := by
  intro rows
  induction rows with
  | nil =>
    intro rows' h
    simp only [insertCell] at h
    cases h
    simp [cellValues, rowColValues]
  | cons q rest ih =>
    intro rows' h
    unfold insertCell at h
    split at h
    · cases h
      rw [cellValues_cons, cellValues_cons]
      show ((rowColValues [(c, i + 1)]) ++ (rowColValues q.2 ++ cellValues rest)).Perm _
      simp [rowColValues]
    · split at h
      case isTrue heq =>
        rcases hmi : mapInsert c (i + 1) q.2 with ⟨prior, cols'⟩
        rw [hmi] at h
        cases prior with
        | some pv => exact absurd h (by simp)
        | none =>
          simp only at h
          cases h
          rw [cellValues_cons, cellValues_cons]
          have hvals := mapInsert_values q.2 c (i + 1) (by rw [hmi])
          rw [hmi] at hvals
          simp only at hvals
          exact (hvals.append_right (cellValues rest)).trans (List.Perm.refl _)
      case isFalse hne =>
        rcases hrec : insertCell wl i r c rest with e | rest'
        · rw [hrec] at h; exact absurd h (by simp [Bind.bind, Except.bind])
        · rw [hrec] at h
          simp only [Bind.bind, Except.bind, pure, Except.pure] at h
          cases h
          rw [cellValues_cons, cellValues_cons]
          have hih := ih rest' hrec
          exact (hih.append_left (rowColValues q.2)).trans List.perm_middle

theorem fillRows_values {wl : List Word} :
    ∀ (rcs : List (Nat × Nat)) (i : Nat) (rows rows' : List (Nat × Row)),
    fillRows wl i rcs rows = .ok rows' →
    (cellValues rows').Perm (cellValues rows ++ List.range' (i + 1) rcs.length) := by
  intro rcs
  induction rcs with
  | nil =>
    intro i rows rows' h
    simp only [fillRows] at h
    cases h
    simp
  | cons rc rest ih =>
    intro i rows rows' h
    unfold fillRows at h
    rcases hic : insertCell wl i rc.1 rc.2 rows with e | rows1
    · rw [hic] at h; exact absurd h (by simp [Bind.bind, Except.bind])
    · rw [hic] at h
      simp only [Bind.bind, Except.bind, pure, Except.pure] at h
      have h1 := insertCell_values rows rows1 hic
      have h2 := ih (i + 1) rows1 rows' h
      have h3 : (cellValues rows1 ++ List.range' (i + 2) rest.length).Perm
          (((i + 1) :: cellValues rows) ++ List.range' (i + 2) rest.length) :=
        h1.append_right _
      have h4 : (((i + 1) :: cellValues rows) ++ List.range' (i + 2) rest.length)
          = (i + 1) :: (cellValues rows ++ List.range' (i + 2) rest.length) := rfl
      have h5 : (cellValues rows ++ List.range' (i + 1) (rest.length + 1))
          = cellValues rows ++ ((i + 1) :: List.range' (i + 2) rest.length) := by
        rw [List.range'_succ]
      have h6 : ((i + 1) :: (cellValues rows ++ List.range' (i + 2) rest.length)).Perm
          (cellValues rows ++ ((i + 1) :: List.range' (i + 2) rest.length)) :=
        List.perm_middle.symm
      show (cellValues rows').Perm (cellValues rows ++ List.range' (i + 1) (rest.length + 1))
      rw [h5]
      exact ((h2.trans h3).trans (h4 ▸ List.Perm.refl _)).trans h6

theorem computeIndices_length {alg : HashAlgorithm} :
    ∀ (ws : List Word) (rcs : List (Nat × Nat)),
    computeIndices alg ws = .ok rcs → rcs.length = ws.length := by
  intro ws
  induction ws with
  | nil =>
    intro rcs h
    simp only [computeIndices] at h
    cases h
    rfl
  | cons w rest ih =>
    intro rcs h
    unfold computeIndices at h
    rcases h1 : alg.h1 w with e | r
    · rw [h1] at h; exact absurd h (by simp [Bind.bind, Except.bind])
    · rw [h1] at h
      rcases h2 : alg.h2 w with e | c
      · rw [h2] at h
        exact absurd h (by simp [Bind.bind, Except.bind])
      · rw [h2] at h
        rcases h3 : computeIndices alg rest with e | rcs'
        · rw [h3] at h
          exact absurd h (by simp [Bind.bind, Except.bind])
        · rw [h3] at h
          simp only [Bind.bind, Except.bind, pure, Except.pure] at h
          cases h
          simp [ih rcs' h3]

theorem valsOf_perm_cellValues {rows : List (Nat × Row)} {bs : List Nat}
    (hks : KeySorted rows) (hperm : bs.Perm (rows.map (·.1))) :
    (valsOf rows bs).Perm (cellValues rows) := by
  have h1 : (bs.map fun ri => rowColValues ((mapLookup ri rows).getD [])).Perm
      ((rows.map (·.1)).map fun ri => rowColValues ((mapLookup ri rows).getD [])) :=
    hperm.map _
  have h2 : ((rows.map (·.1)).map fun ri => rowColValues ((mapLookup ri rows).getD []))
      = rows.map fun p => rowColValues p.2 := by
    rw [List.map_map]
    apply List.map_congr_left
    intro p hp
    show rowColValues ((mapLookup p.1 rows).getD []) = rowColValues p.2
    rw [mapLookup_of_mem rows hks p hp]
    rfl
  unfold valsOf cellValues
  exact (h1.trans (h2 ▸ List.Perm.refl _)).flatten

/-! ### C2: contents of the packed array -/

/-- C2 amended: after a successful `OneDPackedArray::new` on a TwoDArray
built from the word list, the packed array holds every 1-based word-ordinal
exactly once (it is a permutation of `1..N`); and each accepted row writes
its word-ordinals, taken in ascending column order, onto its target set
`{(c + d) mod N}` taken in ascending order of target position (positions
outside the target set are untouched).  The per-column equation
"`(c + d) mod N` holds that column's ordinal" of the original claim fails
when the modular adjustment reorders the columns (see the
counterexample). -/
theorem C2_packed_array : ∀ (wl : WordList) (alg : HashAlgorithm) (tda : TwoDArray)
    (opda : OneDPackedArray),
    TwoDArray.new wl alg = some (.ok tda) →
    OneDPackedArray.new tda = some (.ok opda) →
    opda.array.Perm (List.range' 1 wl.list.length)
  ∧ (∀ (arr unused : List Nat) (row : Row) (d : Int) (arr' unused' : List Nat),
      (∀ c ∈ rowColIndices row, 0 ≤ (c : Int) + d) → 0 < arr.length →
      insertsAt arr unused row d arr' unused' →
      ((targetsOf row d arr.length).Perm
          ((rowColIndices row).map fun c : Nat => (((c : Int) + d).tmod arr.length).toNat)
      ∧ (targetsOf row d arr.length).map (fun t => arr'.getD t 0) = rowColValues row
      ∧ ∀ p, p ∉ targetsOf row d arr.length → arr'[p]? = arr[p]?)) := by
  intro wl alg tda opda ht ho
  refine ⟨?_, ?_⟩
  · obtain ⟨hks0, hcols0⟩ := tda_rows_inv ht
    obtain ⟨rcs, rows, lastIdx, hci, hf, hg, htda⟩ := tda_new_ok ht
    obtain ⟨arr, unusedF, wrk, hpk, harr, -, -⟩ := opda_new_ok ho
    subst htda
    simp only at hks0 hcols0 hpk
    have hsp := sortBySize_perm (rows.map fun p => (p.2.length, p.1))
    have hbsperm : ((sortBySize (rows.map fun p => (p.2.length, p.1))).map (·.2)).Perm
        (rows.map (·.1)) := by
      have hm := hsp.map (·.2)
      simpa [List.map_map, Function.comp] using hm
    have hbs : ∀ i ∈ (sortBySize (rows.map fun p => (p.2.length, p.1))).map (·.2),
        ∃ r, mapLookup i rows = some r :=
      fun i hi => mapLookup_of_mem_keys rows hks0 i (hbsperm.subset hi)
    have hzero : ∀ x ∈ List.range wl.list.length,
        (List.replicate wl.list.length (0 : Nat)).getD x 0 = 0 := by
      intro x hx
      rw [List.getD_eq_getElem?_getD, List.getElem?_replicate,
        if_pos (List.mem_range.mp hx)]
      rfl
    obtain ⟨hmain, -⟩ := packRows_perm hcols0 _ _ _ _ arr unusedF wrk hpk
      (by simp) (List.pairwise_lt_range _) (fun x hx => List.mem_range.mp hx)
      hzero hbs
    rw [List.length_range] at hmain
    have hvals := valsOf_perm_cellValues hks0 hbsperm
    have hcell : (cellValues rows).Perm (List.range' 1 wl.list.length) := by
      have hfv := fillRows_values rcs 0 [] rows hf
      have hlenr := computeIndices_length wl.list rcs hci
      rw [hlenr] at hfv
      simpa [cellValues] using hfv
    have hlv : (valsOf rows ((sortBySize (rows.map fun p => (p.2.length, p.1))).map (·.2))).length
        = wl.list.length := by
      rw [hvals.length_eq, hcell.length_eq, List.length_range']
    have hal : arr.length = wl.list.length := by
      have := (packRows_ok_state hpk).1
      simpa using this
    have hml := hmain.length_eq
    simp only [List.length_append, List.length_replicate] at hml
    have hz : wl.list.length - unusedF.length = wl.list.length := by omega
    rw [hz] at hmain
    have hcancel : (valsOf rows ((sortBySize (rows.map fun p => (p.2.length, p.1))).map (·.2))).Perm
        arr :=
      (List.perm_append_right_iff _).mp hmain
    have : arr.Perm (List.range' 1 wl.list.length) :=
      (hcancel.symm.trans hvals).trans hcell
    rw [harr]
    exact this
  · intro arr unused row d arr' unused' hall hpos hins
    obtain ⟨p1, p2, p3, -⟩ := row_placement hall hpos hins
    exact ⟨p1, p2, p3⟩

/-- C2 counterexample: for the word list AA, AB, BA, BD with the default
algorithm the packing succeeds; the word BA has 1-based ordinal 3 and
hashes to position `(rlt[h1(BA)] + h2(BA)) mod 4 = (3 + 0) mod 4 = 3`, but
the packed array holds the ordinal 4 at position 3.  Row 1 has columns 0
and 3; the accepted shift 3 adjusts them to positions 3 and 2, and the zip
against the sorted adjusted indices `[2, 3]` writes the ordinals in column
order `[3, 4]` at `[2, 3]`, swapping the two words' slots. -/
theorem C2_counterexample :
    TwoDArray.new wlAB algDefault = some (.ok tdaAB) ∧
    OneDPackedArray.new tdaAB = some (.ok opdaAB) ∧
    wlAB.list.get? 2 = some [ 'B', 'A' ] ∧
    hash [ 'B', 'A' ] opdaAB.rlt algDefault = 3 ∧
    opdaAB.array.get? 3 = some 4 ∧ (4 : Nat) ≠ 3 :=
  ⟨rfl, rfl, rfl, rfl, rfl, by decide⟩

/-- C2 witness: the amended theorem applied to the concrete successful
packing of the list AA, AB, BA, BD: the packed array `[1, 2, 3, 4]` is a
permutation of the ordinals `1..4`. -/
theorem C2_witness :
    opdaAB.array.Perm (List.range' 1 wlAB.list.length)
  ∧ (∀ (arr unused : List Nat) (row : Row) (d : Int) (arr' unused' : List Nat),
      (∀ c ∈ rowColIndices row, 0 ≤ (c : Int) + d) → 0 < arr.length →
      insertsAt arr unused row d arr' unused' →
      ((targetsOf row d arr.length).Perm
          ((rowColIndices row).map fun c : Nat => (((c : Int) + d).tmod arr.length).toNat)
      ∧ (targetsOf row d arr.length).map (fun t => arr'.getD t 0) = rowColValues row
      ∧ ∀ p, p ∉ targetsOf row d arr.length → arr'[p]? = arr[p]?)) :=
  C2_packed_array wlAB algDefault tdaAB opdaAB rfl rfl

end Msmp
